import Mathlib

/-!
Verification of the KV-Store repository core: the versioned cache-aside
store (src/server/store.py) backed by the persistence layer
(src/database.py), the consistent-hash ring (src/gateway/consistent_hash.py)
and the hot-spot analytics (src/gateway/monitoring.py), shallowly embedded
in Lean.

Modelling conventions:
- Python dicts are insertion-ordered association lists (updates keep the
  entry position, fresh keys are appended, deletion removes the entry).
- Wall-clock timestamps (time.time) are a Nat clock carried in the state
  and bumped once per top-level operation, so later operations get
  strictly larger timestamps.
- JSON-serializable payloads are an arbitrary type alpha with decidable
  equality; json.dumps followed by json.loads is the identity on them.
- The sqlite values table of database.py is a function from key to the
  list of rows for that key in insertion order.
-/

namespace KVStore

/-- String literal used for the create operation tag. -/
def opCreate : String := "create"

/-- String literal used for the update operation tag. -/
def opUpdate : String := "update"

/-- String literal tagging a result served from the cache. -/
def srcCache : String := "cache"

/-- String literal tagging a result served from the database. -/
def srcDatabase : String := "database"

/-- Python dict lookup d[k] as an Option: the first entry carrying the key. -/
def dictGet {κ β : Type} [DecidableEq κ] (d : List (κ × β)) (k : κ) : Option β :=
  (d.find? (fun p => p.1 = k)).map (fun p => p.2)

/-- Python membership test k in d. -/
def dictContains {κ β : Type} [DecidableEq κ] (d : List (κ × β)) (k : κ) : Bool :=
  d.any (fun p => p.1 = k)

/-- Python dict assignment d[k] = v: update in place if the key is present
(keeping its position, as Python dicts do), otherwise append at the end. -/
def dictSet {κ β : Type} [DecidableEq κ] (d : List (κ × β)) (k : κ) (v : β) :
    List (κ × β) :=
  if dictContains d k then d.map (fun p => if p.1 = k then (k, v) else p)
  else d ++ [(k, v)]

/-- Python del d[k]. -/
def dictDel {κ β : Type} [DecidableEq κ] (d : List (κ × β)) (k : κ) : List (κ × β) :=
  d.filter (fun p => ¬ p.1 = k)

/-- VersionedValue of store.py; the same shape (value, version, timestamp)
also models one row of the sqlite values table of database.py. -/
structure VersionedValue (α : Type) where
  value : α
  version : Nat
  timestamp : Nat
deriving DecidableEq

/-- models.py VersionedValueResponse. -/
structure VersionedValueResponse (α : Type) where
  value : α
  version : Nat
  timestamp : Nat
  source : String
deriving DecidableEq

/-- models.py PutResponse. -/
structure PutResponse where
  operation : String
  key : String
  version : Option Nat
  new_version : Option Nat
  previous_version : Option Nat
  total_versions : Nat
deriving DecidableEq

/-- store.py VersionedValue.to_pydantic. -/
def VersionedValue.to_pydantic {α : Type} (r : VersionedValue α)
    (source : String) : VersionedValueResponse α :=
  ⟨r.value, r.version, r.timestamp, source⟩

/-- The sqlite values table of database.py, viewed per key: rows for a key
in insertion (rowid) order. -/
def Db (α : Type) := String → List (VersionedValue α)

/-- An empty database. -/
def Db.empty (α : Type) : Db α := fun _ => []

/-- The maximal version among the rows (0 when there are none). -/
def maxVersion {α : Type} (recs : List (VersionedValue α)) : Nat :=
  recs.foldl (fun a r => max a r.version) 0

/-- SELECT version FROM values WHERE key = ? ORDER BY version DESC LIMIT 1
of database.py put: the maximal version stored for the key, if any row
exists. -/
def topVersion {α : Type} (recs : List (VersionedValue α)) : Option Nat :=
  if recs.isEmpty then none else some (maxVersion recs)

/-- The dict returned by DatabaseLayer.put: every field is always present
(a field that Python sets to None is none here). -/
structure DbPutResult where
  operation : String
  key : String
  version : Option Nat
  new_version : Option Nat
  previous_version : Option Nat
deriving DecidableEq

/-- database.py DatabaseLayer.put: mint the next version for the key
(1 for a new key, previous max + 1 otherwise) and append the row. -/
def DatabaseLayer.put {α : Type} (db : Db α) (key : String) (value : α)
    (now : Nat) : DbPutResult × Db α :=
  match topVersion (db key) with
  | some prev =>
      (⟨opUpdate, key, none, some (prev + 1), some prev⟩,
       fun k => if k = key then db k ++ [⟨value, prev + 1, now⟩] else db k)
  | none =>
      (⟨opCreate, key, some 1, none, none⟩,
       fun k => if k = key then db k ++ [⟨value, 1, now⟩] else db k)

/-- One comparison step selecting a row of maximal version (first wins on
ties). -/
def latestStep {α : Type} (acc : Option (VersionedValue α))
    (r : VersionedValue α) : Option (VersionedValue α) :=
  match acc with
  | none => some r
  | some a => if a.version < r.version then some r else some a

/-- ORDER BY version DESC LIMIT 1 of database.py get: a row of maximal
version (the first such row when versions repeat, which reachable
databases never do). -/
def latestRow {α : Type} (recs : List (VersionedValue α)) :
    Option (VersionedValue α) :=
  recs.foldl latestStep none

/-- database.py DatabaseLayer.get: the latest row when no version is
requested, otherwise the row with exactly the requested version. -/
def DatabaseLayer.get {α : Type} (db : Db α) (key : String)
    (version : Option Nat) : Option (VersionedValue α) :=
  match version with
  | none => latestRow (db key)
  | some v => (db key).find? (fun r => r.version = v)

/-- The mutable state of store.py VersionedKeyValueStore, together with its
database collaborator and the model clock. -/
structure StoreState (α : Type) where
  store : List (String × List (VersionedValue α))
  access_times : List (String × Nat)
  max_cache_size : Nat
  db : Db α
  clock : Nat

namespace VersionedKeyValueStore

/-- store.py VersionedKeyValueStore.should-evict check:
len(store) >= max_cache_size. -/
def should_evict {α : Type} (s : StoreState α) : Bool :=
  s.max_cache_size ≤ s.store.length

/-- One comparison step of Python min with a key function: keep the earlier
pair unless the new one is strictly smaller. -/
def minStep (acc : Option (String × Nat)) (p : String × Nat) :
    Option (String × Nat) :=
  match acc with
  | none => some p
  | some b => if p.2 < b.2 then some p else some b

/-- Python min(keys, key=access-time) over an insertion-ordered dict: the
first pair attaining the minimal time. -/
def minPair (l : List (String × Nat)) : Option (String × Nat) :=
  l.foldl minStep none

/-- store.py eviction helper: drop the least-recently-used key (oldest
access time) from both the store and the access-time index; a no-op when
the access-time index is empty. -/
def evict_lru {α : Type} (s : StoreState α) : StoreState α :=
  match minPair s.access_times with
  | none => s
  | some b =>
      { s with store := dictDel s.store b.1,
               access_times := dictDel s.access_times b.1 }

/-- store.py VersionedKeyValueStore.put: write through to the database,
evict if a fresh key would overflow the cache, then append the new record
to the key's cached version list. -/
def put {α : Type} (s : StoreState α) (key : String) (value : α) :
    PutResponse × StoreState α :=
  let current_time := s.clock
  let pr := DatabaseLayer.put s.db key value current_time
  let db_result := pr.1
  let operation := db_result.operation
  -- db_result.get of new_version with fallback to version: both dict keys
  -- are always present in the DatabaseLayer.put result, so Python reads
  -- the new_version entry itself (None on a create).
  let new_version : Option Nat := db_result.new_version
  let previous_version := db_result.previous_version
  let s1 : StoreState α := { s with db := pr.2 }
  let s2 := if !(dictContains s1.store key) && should_evict s1
            then evict_lru s1 else s1
  match dictGet s2.store key with
  | some current_versions =>
      -- VersionedValue(value, new_version): the init defaults a None
      -- version to 1.
      let versioned_value : VersionedValue α := ⟨value, new_version.getD 1, current_time⟩
      (⟨operation, key, none, new_version, previous_version,
        current_versions.length + 1⟩,
       { s2 with
           store := dictSet s2.store key (current_versions ++ [versioned_value]),
           access_times := dictSet s2.access_times key current_time })
  | none =>
      let versioned_value : VersionedValue α := ⟨value, new_version.getD 1, current_time⟩
      (⟨operation, key,
        (if operation = opCreate then new_version else none),
        (if operation = opUpdate then new_version else none),
        previous_version, 1⟩,
       { s2 with
           store := dictSet s2.store key [versioned_value],
           access_times := dictSet s2.access_times key current_time })

/-- store.py VersionedKeyValueStore private get-from-database helper:
query the database; on a hit build the response tagged from the database
and populate the cache (evicting first if a fresh key would overflow). -/
def get_from_database {α : Type} (s : StoreState α) (key : String)
    (version : Option Nat) : Option (VersionedValueResponse α) × StoreState α :=
  match DatabaseLayer.get s.db key version with
  | none => (none, s)
  | some db_result =>
      let versioned_response : VersionedValueResponse α :=
        ⟨db_result.value, db_result.version, db_result.timestamp, srcDatabase⟩
      let current_time := s.clock
      let s2 := if !(dictContains s.store key) && should_evict s
                then evict_lru s else s
      -- the cached copy preserves the original row timestamp
      let versioned_value : VersionedValue α :=
        ⟨db_result.value, db_result.version, db_result.timestamp⟩
      let store2 :=
        match dictGet s2.store key with
        | some vs => dictSet s2.store key (vs ++ [versioned_value])
        | none => s2.store ++ [(key, [versioned_value])]
      (some versioned_response,
       { s2 with store := store2,
                 access_times := dictSet s2.access_times key current_time })

/-- store.py VersionedKeyValueStore.get: on a cache hit refresh the access
time and serve from the cached version list (the last element when no
version is requested); fall through to the database otherwise. A cached
entry is never empty in reachable states, so the getLast? always fires
there (Python would raise IndexError on an empty entry). -/
def get {α : Type} (s : StoreState α) (key : String) (version : Option Nat) :
    Option (VersionedValueResponse α) × StoreState α :=
  match dictGet s.store key with
  | some versions =>
      let s1 : StoreState α :=
        { s with access_times := dictSet s.access_times key s.clock }
      match version with
      | none =>
          ((versions.getLast?).map (fun r => r.to_pydantic srcCache), s1)
      | some v =>
          match versions.find? (fun r => r.version = v) with
          | some r => (some (r.to_pydantic srcCache), s1)
          | none => get_from_database s1 key (some v)
  | none => get_from_database s key version

end VersionedKeyValueStore

/-- One client-visible store operation. -/
inductive StoreOp (α : Type) where
  | put (key : String) (value : α)
  | get (key : String) (version : Option Nat)

/-- Run one operation for its state effect; the clock advances so distinct
operations carry distinct timestamps. -/
def stepOp {α : Type} (s : StoreState α) (op : StoreOp α) : StoreState α :=
  match op with
  | .put k v => { (VersionedKeyValueStore.put s k v).2 with clock := s.clock + 1 }
  | .get k ver => { (VersionedKeyValueStore.get s k ver).2 with clock := s.clock + 1 }

/-- Run a sequence of operations. -/
def runOps {α : Type} (s : StoreState α) (ops : List (StoreOp α)) : StoreState α :=
  ops.foldl stepOp s

/-- A freshly constructed store over an empty database. -/
def initState (α : Type) (m : Nat) : StoreState α :=
  ⟨[], [], m, Db.empty α, 0⟩

/-! ### Derived definitions, invariants and concrete inputs -/

/-- The version number minted by the next database put for a key. -/
def mintedVersion {α : Type} (db : Db α) (key : String) : Nat :=
  match topVersion (db key) with
  | some prev => prev + 1
  | none => 1

/-- The per-key version invariant of the database: rows for each key carry
versions 1, 2, ..., n in insertion order. -/
def DbWF {α : Type} (db : Db α) : Prop :=
  ∀ k, (db k).map (fun r => r.version) = List.range' 1 (db k).length

/-- Well-formedness invariant of a store state: cache keys are distinct,
the access-time index tracks exactly the cached keys in the same order,
cached entries are nonempty, every cached version exists in the database,
the database satisfies the per-key version invariant, and the cache size
is bounded by max(max_cache_size, 1). -/
structure Inv {α : Type} (s : StoreState α) : Prop where
  nodup : (s.store.map Prod.fst).Nodup
  sync : s.access_times.map Prod.fst = s.store.map Prod.fst
  entriesNonempty : ∀ p ∈ s.store, p.2 ≠ ([] : List (VersionedValue α))
  inDb : ∀ p ∈ s.store, ∀ r ∈ p.2, ∃ dr ∈ s.db p.1, dr.version = r.version
  dbwf : DbWF s.db
  bound : s.store.length ≤ max s.max_cache_size 1

/-- Bool check of the CacheEntry invariant stated in the spec: the last
element of the cached version list carries the maximal cached version. -/
def lastIsHighest {α : Type} (vs : List (VersionedValue α)) : Bool :=
  match vs.getLast? with
  | none => true
  | some l => vs.all (fun r => r.version ≤ l.version)

/-- Operations that never append a fetched historical version to an
existing cache entry: puts, and gets with version unspecified. -/
def RestrictedOp {α : Type} : StoreOp α → Prop
  | .put _ _ => True
  | .get _ ver => ver = none

/-- Every cached entry satisfies the last-is-highest invariant. -/
def SortedCache {α : Type} (s : StoreState α) : Prop :=
  ∀ p ∈ s.store, lastIsHighest p.2 = true

/-- One database write advancing the write clock. -/
def dbPutStep {α : Type} (st : Db α × Nat) (op : String × α) : Db α × Nat :=
  ((DatabaseLayer.put st.1 op.1 op.2 st.2).2, st.2 + 1)

/-- The database produced by a sequence of Persistence.put calls starting
from an empty database. -/
def runDbPuts {α : Type} (ops : List (String × α)) : Db α :=
  (ops.foldl dbPutStep (Db.empty α, 0)).1

/-! ### Concrete keys, operation sequences and states used as inputs -/

/-- Concrete key used in witnesses and counterexamples. -/
def keyK : String := "k"

/-- Second concrete key. -/
def keyJ : String := "j"

/-- Third concrete key. -/
def keyA : String := "a"

/-- A key that is never written. -/
def keyMissing : String := "missing"

/-- Operation sequence whose final state violates the last-is-highest
cache invariant: the two puts fill version history, the put of a second
key evicts, the versionless get repopulates with only version 2, and the
get of version 1 appends the older version after it. -/
def cexOps : List (StoreOp Nat) :=
  [.put keyK 10, .put keyK 20, .put keyJ 30, .get keyK none,
   .get keyK (some 1)]

/-- The state reached by cexOps on a store with max_cache_size 1. -/
def cexState : StoreState Nat := runOps (initState Nat 1) cexOps

/-- A small reachable state with one cached key, used in witnesses. -/
def witState : StoreState Nat := runOps (initState Nat 2) [.put keyK 7]

/-! ### Consistent hash ring (src/gateway/consistent_hash.py)

The SHA-256 hash interpreted as a big integer is passed to each operation
as an opaque function, keeping hashlib an external collaborator of the
embedding; bisect.bisect_left and bisect.insort are modelled by their
contracts on sorted lists. -/

/-- State of gateway ConsistentHash: the ring dict from hash value to
server and the sorted list of hash values. -/
structure ConsistentHash where
  ring : List (Nat × String)
  sorted_keys : List Nat

namespace ConsistentHash

/-- Contract of Python bisect.bisect_left on a sorted list: the number of
entries strictly below x, which is the first index holding a value at or
above x. -/
def bisect_left (xs : List Nat) (x : Nat) : Nat :=
  (xs.takeWhile (fun h => h < x)).length

/-- consistent_hash.py add_server: insert one (hash, server) ring entry
per virtual-node replica, keeping the hash list sorted (bisect.insort
modelled by ordered insertion). -/
def add_server (hf : String → Nat) (c : ConsistentHash) (server : String)
    (virtual_nodes : Nat) : ConsistentHash :=
  (List.range virtual_nodes).foldl
    (fun c i =>
      let hash_value := hf (server ++ "#" ++ toString i)
      { ring := dictSet c.ring hash_value server,
        sorted_keys := List.orderedInsert (· ≤ ·) hash_value c.sorted_keys })
    c

/-- One iteration of the remove_server loop: delete the hash value from
the ring dict and from the hash list (Python list.remove drops the first
occurrence, as List.erase does). -/
def removeStep (c : ConsistentHash) (h : Nat) : ConsistentHash :=
  { ring := dictDel c.ring h, sorted_keys := c.sorted_keys.erase h }

/-- consistent_hash.py remove_server: collect the hash values owned by the
server, then delete each from the ring dict and the hash list. -/
def remove_server (c : ConsistentHash) (server : String) : ConsistentHash :=
  let keys_to_remove := (c.ring.filter (fun p => p.2 = server)).map
    (fun p => p.1)
  keys_to_remove.foldl removeStep c

/-- consistent_hash.py get_server: None on an empty ring, otherwise
bisect_left for the first hash at or above the key hash, wrapping to
index 0 past the end, then the ring lookup at that hash. -/
def get_server (hf : String → Nat) (c : ConsistentHash) (key : String) :
    Option String :=
  if c.sorted_keys.isEmpty then none
  else
    let key_hash := hf key
    let index := bisect_left c.sorted_keys key_hash
    let index2 := if index = c.sorted_keys.length then 0 else index
    (c.sorted_keys.get? index2).bind (fun h => dictGet c.ring h)

end ConsistentHash

/-- Modelled from the spec (4.1, locate): the node owning the first ring
entry whose hash value is at least hash(key), wrapping around to the
first entry when the key hashes past the last one; the empty-ring failure
is the none value. Refinement target for get_server. -/
def locateSpec (hf : String → Nat) (c : ConsistentHash) (key : String) :
    Option String :=
  if c.sorted_keys.isEmpty then none
  else
    match c.sorted_keys.find? (fun h => hf key ≤ h) with
    | some h => dictGet c.ring h
    | none => (c.sorted_keys.head?).bind (fun h => dictGet c.ring h)

/-- A concrete ring used in witnesses: servers a and b, with a owning the
hash positions 1 and 9 and b owning 5. -/
def witRing : ConsistentHash := ⟨[(1, keyA), (5, keyJ), (9, keyA)], [1, 5, 9]⟩

/-- A concrete stand-in for the hash function in witnesses. -/
def witHash : String → Nat := fun k => k.length

/-! ### Hot-spot analytics (src/gateway/monitoring.py) -/

/-- monitoring.py ServerMetrics dataclass. Latency and resource gauges are
exact rationals in the model (Python floats); request counts are
integers. -/
structure ServerMetrics where
  server_name : String
  request_count : Nat
  avg_latency_ms : ℚ
  cpu_usage_percent : ℚ
  memory_usage_percent : ℚ
deriving DecidableEq

/-- sum(m.request_count for m in server_metrics). -/
def total_requests (metrics : List ServerMetrics) : Nat :=
  (metrics.map (fun m => m.request_count)).sum

/-- sum(m.avg_latency_ms) / len(server_metrics). -/
def avg_latency (metrics : List ServerMetrics) : ℚ :=
  (metrics.map (fun m => m.avg_latency_ms)).sum / (metrics.length : ℚ)

/-- The hot-spot loop of monitoring.py get_insights: flag a server when
its request count exceeds (total_requests / len) * 1.5 (1.5 is exactly
3/2). -/
def hot_spots (metrics : List ServerMetrics) : List String :=
  (metrics.filter (fun m => ((m.request_count : ℚ)) >
      ((total_requests metrics : ℚ) / (metrics.length : ℚ)) * (3 / 2))).map
    (fun m => m.server_name)

/-- The slow-server loop of monitoring.py get_insights: flag a server when
its mean latency exceeds the overall mean latency times 1.5. -/
def slow_servers (metrics : List ServerMetrics) : List String :=
  (metrics.filter (fun m => m.avg_latency_ms >
      avg_latency metrics * (3 / 2))).map (fun m => m.server_name)

/-- Name of the first sample server. -/
def srvOne : String := "s1"

/-- Name of the second sample server. -/
def srvTwo : String := "s2"

/-- Name of the third sample server. -/
def srvThree : String := "s3"

/-- The spec's first hot-spot example: request counts [10, 10, 31]. -/
def exMetricsHot : List ServerMetrics :=
  [⟨srvOne, 10, 0, 0, 0⟩, ⟨srvTwo, 10, 0, 0, 0⟩, ⟨srvThree, 31, 0, 0, 0⟩]

/-- The spec's second example: request counts [10, 10, 20], none hot. -/
def exMetricsCool : List ServerMetrics :=
  [⟨srvOne, 10, 0, 0, 0⟩, ⟨srvTwo, 10, 0, 0, 0⟩, ⟨srvThree, 20, 0, 0, 0⟩]


/-! ### Lemmas about the dict model -/

section DictLemmas

variable {κ β : Type} [DecidableEq κ]

theorem dictContains_true_iff (d : List (κ × β)) (k : κ) :
    dictContains d k = true ↔ k ∈ d.map Prod.fst := by
  unfold dictContains
  rw [List.any_eq_true]
  constructor
  · rintro ⟨p, hp, he⟩
    simp only [decide_eq_true_eq] at he
    exact List.mem_map.2 ⟨p, hp, he⟩
  · intro hk
    obtain ⟨p, hp, he⟩ := List.mem_map.1 hk
    exact ⟨p, hp, by simp [he]⟩

theorem dictContains_false_iff (d : List (κ × β)) (k : κ) :
    dictContains d k = false ↔ ¬ k ∈ d.map Prod.fst := by
  rw [← dictContains_true_iff]
  simp

theorem dictGet_eq_none_iff (d : List (κ × β)) (k : κ) :
    dictGet d k = none ↔ dictContains d k = false := by
  unfold dictGet dictContains
  constructor
  · intro h
    rw [Option.map_eq_none', List.find?_eq_none] at h
    rw [← Bool.not_eq_true, List.any_eq_true]
    rintro ⟨p, hp, he⟩
    exact h p hp he
  · intro h
    rw [← Bool.not_eq_true, List.any_eq_true] at h
    rw [Option.map_eq_none', List.find?_eq_none]
    intro p hp he
    exact h ⟨p, hp, he⟩

theorem dictGet_isSome_of_contains {d : List (κ × β)} {k : κ}
    (h : dictContains d k = true) : (dictGet d k).isSome := by
  cases hg : dictGet d k with
  | none => rw [dictGet_eq_none_iff] at hg; rw [h] at hg; cases hg
  | some v => simp

theorem dictGet_mem {d : List (κ × β)} {k : κ} {v : β}
    (h : dictGet d k = some v) : (k, v) ∈ d := by
  unfold dictGet at h
  cases hf : d.find? (fun p => p.1 = k) with
  | none => rw [hf] at h; simp at h
  | some q =>
      rw [hf] at h
      simp only [Option.map_some'] at h
      have hq := List.find?_some hf
      simp only [decide_eq_true_eq] at hq
      have hm := List.mem_of_find?_eq_some hf
      rcases q with ⟨qk, qv⟩
      simp only [Option.some.injEq] at h
      simp only at hq
      subst h
      subst hq
      exact hm

theorem dictGet_contains {d : List (κ × β)} {k : κ} {v : β}
    (h : dictGet d k = some v) : dictContains d k = true := by
  rcases hc : dictContains d k with _ | _
  · rw [← dictGet_eq_none_iff] at hc; rw [h] at hc; cases hc
  · rfl

theorem find?_key_map_update (d : List (κ × β)) (k k' : κ) (v : β)
    (h : ¬ k' = k) :
    (d.map (fun p => if p.1 = k then (k, v) else p)).find?
        (fun p => p.1 = k') = d.find? (fun p => p.1 = k') := by
  rw [List.find?_map]
  have hfun : ((fun p : κ × β => decide (p.1 = k')) ∘
      (fun p => if p.1 = k then (k, v) else p)) =
        fun p : κ × β => decide (p.1 = k') := by
    funext q
    by_cases hq : q.1 = k
    · simp only [Function.comp, hq, if_pos rfl]
      simp [hq, fun he : k = k' => h he.symm]
    · simp [Function.comp, hq]
  rw [hfun]
  cases hf : d.find? (fun p : κ × β => p.1 = k') with
  | none => simp
  | some q =>
      have hq := List.find?_some hf
      simp only [decide_eq_true_eq] at hq
      have hqk : ¬ q.1 = k := by rw [hq]; exact h
      simp [hqk]

theorem dictGet_dictSet_self (d : List (κ × β)) (k : κ) (v : β) :
    dictGet (dictSet d k v) k = some v := by
  unfold dictSet
  by_cases hc : dictContains d k = true
  · rw [if_pos hc]
    unfold dictGet
    rw [List.find?_map]
    have hfun : ((fun p : κ × β => decide (p.1 = k)) ∘
        (fun p => if p.1 = k then (k, v) else p)) =
          fun p : κ × β => decide (p.1 = k) := by
      funext q
      by_cases hq : q.1 = k <;> simp [Function.comp, hq]
    rw [hfun]
    have hsome := dictGet_isSome_of_contains hc
    unfold dictGet at hsome
    cases hf : d.find? (fun p : κ × β => p.1 = k) with
    | none => rw [hf] at hsome; simp at hsome
    | some q =>
        have hq := List.find?_some hf
        simp only [decide_eq_true_eq] at hq
        simp [hq]
  · rw [if_neg hc]
    unfold dictGet
    rw [List.find?_append]
    have hnone : d.find? (fun p : κ × β => p.1 = k) = none := by
      have := (dictGet_eq_none_iff d k).2 (Bool.not_eq_true _ ▸ hc)
      unfold dictGet at this
      cases hf : d.find? (fun p : κ × β => p.1 = k) with
      | none => rfl
      | some q => rw [hf] at this; simp at this
    rw [hnone]
    simp

theorem dictGet_dictSet_ne (d : List (κ × β)) {k k' : κ} (v : β)
    (h : ¬ k' = k) : dictGet (dictSet d k v) k' = dictGet d k' := by
  unfold dictSet
  by_cases hc : dictContains d k = true
  · rw [if_pos hc]
    unfold dictGet
    rw [find?_key_map_update d k k' v h]
  · rw [if_neg hc]
    unfold dictGet
    rw [List.find?_append]
    cases hf : d.find? (fun p : κ × β => p.1 = k') with
    | none =>
        have h2 : ¬ k = k' := fun he => h he.symm
        simp [List.find?_cons, h2]
    | some q => simp

theorem map_fst_dictSet_contains (d : List (κ × β)) (k : κ) (v : β)
    (hc : dictContains d k = true) :
    (dictSet d k v).map Prod.fst = d.map Prod.fst := by
  unfold dictSet
  rw [if_pos hc, List.map_map]
  apply List.map_congr_left
  intro p _
  by_cases hq : p.1 = k <;> simp [Function.comp, hq]

theorem map_fst_dictSet_not_contains (d : List (κ × β)) (k : κ)
    (v : β) (hc : dictContains d k = false) :
    (dictSet d k v).map Prod.fst = d.map Prod.fst ++ [k] := by
  unfold dictSet
  rw [if_neg (by simp [hc])]
  simp

theorem map_fst_dictDel (d : List (κ × β)) (k : κ) :
    (dictDel d k).map Prod.fst = (d.map Prod.fst).filter (fun x => ¬ x = k) := by
  unfold dictDel
  induction d with
  | nil => simp
  | cons p t ih =>
      rw [List.filter_cons, List.map_cons, List.filter_cons]
      by_cases hp : p.1 = k
      · rw [if_neg (by simp [hp]), if_neg (by simp [hp])]
        exact ih
      · rw [if_pos (by simp [hp]), if_pos (by simp [hp]), List.map_cons, ih]

theorem nodup_map_fst_dictSet (d : List (κ × β)) (k : κ) (v : β)
    (h : (d.map Prod.fst).Nodup) : ((dictSet d k v).map Prod.fst).Nodup := by
  by_cases hc : dictContains d k = true
  · rw [map_fst_dictSet_contains d k v hc]; exact h
  · rw [map_fst_dictSet_not_contains d k v (Bool.not_eq_true _ ▸ hc)]
    rw [List.nodup_append]
    refine ⟨h, List.nodup_singleton k, ?_⟩
    intro a ha hb
    rw [List.mem_singleton] at hb
    rw [Bool.not_eq_true] at hc
    rw [dictContains_false_iff] at hc
    rw [hb] at ha
    exact hc ha

theorem nodup_map_fst_dictDel (d : List (κ × β)) (k : κ)
    (h : (d.map Prod.fst).Nodup) : ((dictDel d k).map Prod.fst).Nodup := by
  rw [map_fst_dictDel]
  exact h.filter _

theorem dictGet_dictDel_self (d : List (κ × β)) (k : κ) :
    dictGet (dictDel d k) k = none := by
  rw [dictGet_eq_none_iff, dictContains_false_iff, map_fst_dictDel]
  simp

theorem dictGet_dictDel_ne (d : List (κ × β)) {k k' : κ}
    (h : ¬ k' = k) : dictGet (dictDel d k) k' = dictGet d k' := by
  unfold dictGet dictDel
  induction d with
  | nil => simp
  | cons p t ih =>
      rw [List.filter_cons]
      by_cases hp : p.1 = k
      · rw [if_neg (by simp [hp])]
        have hne : ¬ p.1 = k' := by rw [hp]; intro hx; exact h hx.symm
        rw [List.find?_cons_of_neg _ (by simp [hne])]
        exact ih
      · rw [if_pos (by simp [hp])]
        by_cases hp' : p.1 = k'
        · rw [List.find?_cons_of_pos _ (by simp [hp']),
            List.find?_cons_of_pos _ (by simp [hp'])]
        · rw [List.find?_cons_of_neg _ (by simp [hp']),
            List.find?_cons_of_neg _ (by simp [hp'])]
          exact ih

end DictLemmas

/-! ### Lemmas about find?, filter, head? used for ring reasoning -/

section FindFilterLemmas

variable {γ : Type}

theorem find?_filter_some {p q : γ → Bool} {l : List γ} {a : γ}
    (hf : l.find? p = some a) (hq : q a = true) :
    (l.filter q).find? p = some a := by
  induction l with
  | nil => simp at hf
  | cons b t ih =>
      by_cases hb : p b = true
      · rw [List.find?_cons_of_pos _ hb] at hf
        injection hf with hf
        subst hf
        rw [List.filter_cons, if_pos hq]
        exact List.find?_cons_of_pos _ hb
      · rw [List.find?_cons_of_neg _ hb] at hf
        rw [List.filter_cons]
        by_cases hqb : q b = true
        · rw [if_pos hqb, List.find?_cons_of_neg _ hb]
          exact ih hf
        · rw [if_neg hqb]
          exact ih hf

theorem find?_filter_none {p q : γ → Bool} {l : List γ}
    (hf : l.find? p = none) : (l.filter q).find? p = none := by
  rw [List.find?_eq_none] at *
  intro a ha
  exact hf a (List.mem_of_mem_filter ha)

theorem head?_filter_of_pos {q : γ → Bool} {l : List γ} {a : γ}
    (h : l.head? = some a) (hq : q a = true) : (l.filter q).head? = some a := by
  cases l with
  | nil => simp at h
  | cons b t =>
      injection h with h
      subst h
      simp [List.filter_cons, hq]

end FindFilterLemmas

/-! ### Lemmas about the LRU minimum search -/

section MinPairLemmas

open VersionedKeyValueStore

theorem foldl_minStep_some (l : List (String × Nat)) (b : String × Nat) :
    ∃ c, l.foldl minStep (some b) = some c ∧ (c = b ∨ c ∈ l) ∧ c.2 ≤ b.2 ∧
      ∀ p ∈ l, c.2 ≤ p.2 := by
  induction l generalizing b with
  | nil => exact ⟨b, rfl, Or.inl rfl, le_refl _, by simp⟩
  | cons p t ih =>
      by_cases hp : p.2 < b.2
      · obtain ⟨c, h1, h2, h3, h4⟩ := ih p
        refine ⟨c, ?_, ?_, ?_, ?_⟩
        · simpa [minStep, List.foldl_cons, if_pos hp] using h1
        · rcases h2 with h2 | h2
          · exact Or.inr (h2 ▸ List.mem_cons_self p t)
          · exact Or.inr (List.mem_cons_of_mem p h2)
        · exact le_trans h3 (le_of_lt hp)
        · intro q hq
          rcases List.mem_cons.1 hq with hq | hq
          · exact hq ▸ h3
          · exact h4 q hq
      · obtain ⟨c, h1, h2, h3, h4⟩ := ih b
        refine ⟨c, ?_, ?_, ?_, ?_⟩
        · simpa [minStep, List.foldl_cons, if_neg hp] using h1
        · rcases h2 with h2 | h2
          · exact Or.inl h2
          · exact Or.inr (List.mem_cons_of_mem p h2)
        · exact h3
        · intro q hq
          rcases List.mem_cons.1 hq with hq | hq
          · exact hq ▸ le_trans h3 (Nat.le_of_not_lt hp)
          · exact h4 q hq

theorem minPair_eq_none_iff (l : List (String × Nat)) :
    minPair l = none ↔ l = [] := by
  cases l with
  | nil => simp [minPair]
  | cons p t =>
      simp only [minPair, List.foldl_cons]
      obtain ⟨c, h1, -, -, -⟩ := foldl_minStep_some t p
      rw [show minStep none p = some p from rfl, h1]
      simp

theorem minPair_spec {l : List (String × Nat)} {c : String × Nat}
    (h : minPair l = some c) : c ∈ l ∧ ∀ p ∈ l, c.2 ≤ p.2 := by
  cases l with
  | nil => simp [minPair] at h
  | cons p t =>
      simp only [minPair, List.foldl_cons] at h
      rw [show minStep none p = some p from rfl] at h
      obtain ⟨c2, h1, h2, h3, h4⟩ := foldl_minStep_some t p
      rw [h1] at h
      injection h with h
      subst h
      constructor
      · rcases h2 with h2 | h2
        · exact h2 ▸ List.mem_cons_self p t
        · exact List.mem_cons_of_mem p h2
      · intro q hq
        rcases List.mem_cons.1 hq with hq | hq
        · exact hq ▸ h3
        · exact h4 q hq

end MinPairLemmas

/-! ### Lemmas about maxVersion and latestRow -/

section DbHelperLemmas

variable {α : Type}

theorem foldl_max_ge (l : List (VersionedValue α)) (a : Nat) :
    a ≤ l.foldl (fun a r => max a r.version) a := by
  induction l generalizing a with
  | nil => exact le_refl a
  | cons r t ih => exact le_trans (le_max_left a r.version) (ih _)

theorem foldl_max_mono (l : List (VersionedValue α)) {a b : Nat} (h : a ≤ b) :
    l.foldl (fun a r => max a r.version) a ≤
      l.foldl (fun a r => max a r.version) b := by
  induction l generalizing a b with
  | nil => exact h
  | cons r t ih => exact ih (max_le_max h (le_refl r.version))

theorem maxVersion_ge {l : List (VersionedValue α)} {r : VersionedValue α}
    (h : r ∈ l) : r.version ≤ maxVersion l := by
  unfold maxVersion
  induction l with
  | nil => simp at h
  | cons q t ih =>
      simp only [List.foldl_cons]
      rcases List.mem_cons.1 h with h | h
      · subst h
        exact le_trans (le_max_right 0 r.version) (foldl_max_ge t _)
      · exact le_trans (ih h) (foldl_max_mono t (Nat.zero_le _))

theorem maxVersion_eq_foldl_map (l : List (VersionedValue α)) :
    maxVersion l = (l.map (fun r => r.version)).foldl max 0 := by
  rw [List.foldl_map]
  rfl

theorem foldl_max_range (n : Nat) : (List.range' 1 n).foldl max 0 = n := by
  induction n with
  | zero => rfl
  | succ m ih =>
      have h := @List.range'_concat 1 1 m
      simp only [Nat.one_mul] at h
      rw [h, List.foldl_append, ih]
      simp
      omega

theorem maxVersion_of_range {l : List (VersionedValue α)}
    (h : l.map (fun r => r.version) = List.range' 1 l.length) :
    maxVersion l = l.length := by
  rw [maxVersion_eq_foldl_map, h, foldl_max_range]

theorem foldl_latestStep_some (l : List (VersionedValue α))
    (b : VersionedValue α) :
    ∃ c, l.foldl latestStep (some b) = some c ∧ (c = b ∨ c ∈ l) ∧
      b.version ≤ c.version ∧ ∀ r ∈ l, r.version ≤ c.version := by
  induction l generalizing b with
  | nil => exact ⟨b, rfl, Or.inl rfl, le_refl _, by simp⟩
  | cons r t ih =>
      by_cases hr : b.version < r.version
      · obtain ⟨c, h1, h2, h3, h4⟩ := ih r
        refine ⟨c, ?_, ?_, ?_, ?_⟩
        · simpa [latestStep, List.foldl_cons, if_pos hr] using h1
        · rcases h2 with h2 | h2
          · exact Or.inr (h2 ▸ List.mem_cons_self r t)
          · exact Or.inr (List.mem_cons_of_mem r h2)
        · exact le_trans (le_of_lt hr) h3
        · intro q hq
          rcases List.mem_cons.1 hq with hq | hq
          · exact hq ▸ h3
          · exact h4 q hq
      · obtain ⟨c, h1, h2, h3, h4⟩ := ih b
        refine ⟨c, ?_, ?_, ?_, ?_⟩
        · simpa [latestStep, List.foldl_cons, if_neg hr] using h1
        · rcases h2 with h2 | h2
          · exact Or.inl h2
          · exact Or.inr (List.mem_cons_of_mem r h2)
        · exact h3
        · intro q hq
          rcases List.mem_cons.1 hq with hq | hq
          · exact hq ▸ le_trans (Nat.le_of_not_lt hr) h3
          · exact h4 q hq

theorem latestRow_eq_none_iff (l : List (VersionedValue α)) :
    latestRow l = none ↔ l = [] := by
  cases l with
  | nil => simp [latestRow]
  | cons r t =>
      simp only [latestRow, List.foldl_cons]
      obtain ⟨c, h1, -, -, -⟩ := foldl_latestStep_some t r
      rw [show latestStep none r = some r from rfl, h1]
      simp

theorem latestRow_mem {l : List (VersionedValue α)} {r : VersionedValue α}
    (h : latestRow l = some r) : r ∈ l := by
  cases l with
  | nil => simp [latestRow] at h
  | cons q t =>
      simp only [latestRow, List.foldl_cons] at h
      rw [show latestStep none q = some q from rfl] at h
      obtain ⟨c, h1, h2, -, -⟩ := foldl_latestStep_some t q
      rw [h1] at h
      injection h with h
      subst h
      rcases h2 with h2 | h2
      · exact h2 ▸ List.mem_cons_self q t
      · exact List.mem_cons_of_mem q h2

end DbHelperLemmas

/-! ### More dict lemmas -/

section DictLemmas2

variable {κ β : Type} [DecidableEq κ]

theorem mem_dictSet {d : List (κ × β)} {k : κ} {v : β}
    {p : κ × β} (hp : p ∈ dictSet d k v) : p = (k, v) ∨ p ∈ d := by
  unfold dictSet at hp
  by_cases hc : dictContains d k = true
  · rw [if_pos hc] at hp
    obtain ⟨q, hq, he⟩ := List.mem_map.1 hp
    by_cases hqk : q.1 = k
    · rw [if_pos hqk] at he
      exact Or.inl he.symm
    · rw [if_neg hqk] at he
      exact Or.inr (he ▸ hq)
  · rw [if_neg hc] at hp
    rcases List.mem_append.1 hp with hp | hp
    · exact Or.inr hp
    · exact Or.inl (List.mem_singleton.1 hp)

theorem mem_dictDel {d : List (κ × β)} {k : κ} {p : κ × β}
    (hp : p ∈ dictDel d k) : p ∈ d :=
  List.mem_of_mem_filter hp

theorem length_dictSet_contains {d : List (κ × β)} {k : κ} (v : β)
    (hc : dictContains d k = true) : (dictSet d k v).length = d.length := by
  have h := congrArg List.length (map_fst_dictSet_contains d k v hc)
  simpa using h

theorem length_dictSet_not_contains {d : List (κ × β)} {k : κ}
    (v : β) (hc : dictContains d k = false) :
    (dictSet d k v).length = d.length + 1 := by
  have h := congrArg List.length (map_fst_dictSet_not_contains d k v hc)
  simpa using h

theorem length_dictDel_of_mem {d : List (κ × β)} {k : κ}
    (hnd : (d.map Prod.fst).Nodup) (hm : k ∈ d.map Prod.fst) :
    (dictDel d k).length = d.length - 1 := by
  have h1 : (dictDel d k).length = ((dictDel d k).map Prod.fst).length := by simp
  rw [h1, map_fst_dictDel]
  have h2 : (d.map Prod.fst).filter (fun x => ¬ x = k) =
      (d.map Prod.fst).erase k := by
    rw [hnd.erase_eq_filter k]
    apply List.filter_congr
    intro a _
    by_cases ha : a = k <;> simp [ha]
  rw [h2, List.length_erase_of_mem hm]
  simp

theorem length_dictDel_le (d : List (κ × β)) (k : κ) :
    (dictDel d k).length ≤ d.length :=
  List.length_filter_le _ _

theorem dictContains_dictDel_of_not {d : List (κ × β)} {k k' : κ}
    (hc : dictContains d k = false) :
    dictContains (dictDel d k') k = false := by
  rw [dictContains_false_iff] at hc ⊢
  rw [map_fst_dictDel]
  intro hm
  exact hc (List.mem_of_mem_filter hm)

end DictLemmas2

/-! ### Description lemmas for DatabaseLayer.put -/

section DbPutLemmas

variable {α : Type}

theorem dbPut_db_eq (db : Db α) (key : String) (value : α) (now : Nat) :
    (DatabaseLayer.put db key value now).2 =
      fun k => if k = key then db k ++ [⟨value, mintedVersion db key, now⟩]
               else db k := by
  unfold DatabaseLayer.put mintedVersion
  cases topVersion (db key) <;> rfl

theorem dbPut_new_version_getD (db : Db α) (key : String) (value : α)
    (now : Nat) :
    ((DatabaseLayer.put db key value now).1.new_version).getD 1 =
      mintedVersion db key := by
  unfold DatabaseLayer.put mintedVersion
  cases topVersion (db key) <;> rfl

theorem dbPut_mem_mono (db : Db α) (key : String) (value : α) (now : Nat)
    (k : String) {r : VersionedValue α} (hr : r ∈ db k) :
    r ∈ (DatabaseLayer.put db key value now).2 k := by
  rw [dbPut_db_eq]
  dsimp only
  by_cases hk : k = key
  · rw [if_pos hk]
    exact List.mem_append_left _ hr
  · rw [if_neg hk]
    exact hr

theorem dbPut_minted_mem (db : Db α) (key : String) (value : α) (now : Nat) :
    (⟨value, mintedVersion db key, now⟩ : VersionedValue α) ∈
      (DatabaseLayer.put db key value now).2 key := by
  rw [dbPut_db_eq]
  dsimp only
  rw [if_pos rfl]
  exact List.mem_append_right _ (List.mem_singleton.2 rfl)

theorem mintedVersion_eq_of_wf {db : Db α} (h : DbWF db) (key : String) :
    mintedVersion db key = (db key).length + 1 := by
  unfold mintedVersion topVersion
  by_cases he : (db key).isEmpty
  · rw [if_pos he]
    rw [List.isEmpty_iff] at he
    rw [he]
    rfl
  · rw [if_neg he]
    rw [maxVersion_of_range (h key)]

theorem DbWF_dbPut {db : Db α} (h : DbWF db) (key : String) (value : α)
    (now : Nat) : DbWF (DatabaseLayer.put db key value now).2 := by
  intro k
  rw [dbPut_db_eq]
  dsimp only
  by_cases hk : k = key
  · rw [if_pos hk]
    subst hk
    have hc := @List.range'_concat 1 1 (db k).length
    simp only [Nat.one_mul] at hc
    rw [List.map_append, h k, mintedVersion_eq_of_wf h k]
    simp [hc, Nat.add_comm]
  · rw [if_neg hk]
    exact h k

theorem DbWF_empty : DbWF (Db.empty α) := by
  intro k
  rfl

end DbPutLemmas

/-! ### The reachable-state invariant of the store -/

section InvariantDefs

variable {α : Type}

open VersionedKeyValueStore

theorem evict_lru_cases (s : StoreState α) :
    (s.access_times = [] ∧ evict_lru s = s) ∨
    (∃ b, minPair s.access_times = some b ∧
      evict_lru s = { s with store := dictDel s.store b.1,
                             access_times := dictDel s.access_times b.1 }) := by
  unfold evict_lru
  cases hm : minPair s.access_times with
  | none => exact Or.inl ⟨(minPair_eq_none_iff _).1 hm, rfl⟩
  | some b => exact Or.inr ⟨b, rfl, rfl⟩

theorem evict_lru_db (s : StoreState α) : (evict_lru s).db = s.db := by
  rcases evict_lru_cases s with ⟨-, he⟩ | ⟨b, -, he⟩ <;> rw [he]

theorem evict_lru_max (s : StoreState α) :
    (evict_lru s).max_cache_size = s.max_cache_size := by
  rcases evict_lru_cases s with ⟨-, he⟩ | ⟨b, -, he⟩ <;> rw [he]

theorem evict_lru_clock (s : StoreState α) : (evict_lru s).clock = s.clock := by
  rcases evict_lru_cases s with ⟨-, he⟩ | ⟨b, -, he⟩ <;> rw [he]

/-- Eviction commutes with replacing the database component. -/
theorem evict_lru_db_set (s : StoreState α) (db2 : Db α) :
    evict_lru { s with db := db2 } = { evict_lru s with db := db2 } := by
  unfold evict_lru
  cases hm : minPair s.access_times <;> rfl

theorem Inv_evict {s : StoreState α} (h : Inv s) : Inv (evict_lru s) := by
  rcases evict_lru_cases s with ⟨-, he⟩ | ⟨b, -, he⟩
  · rw [he]; exact h
  · rw [he]
    refine ⟨?_, ?_, ?_, ?_, h.dbwf, ?_⟩
    · exact nodup_map_fst_dictDel _ _ h.nodup
    · rw [map_fst_dictDel, map_fst_dictDel, h.sync]
    · intro p hp
      exact h.entriesNonempty p (mem_dictDel hp)
    · intro p hp
      exact h.inDb p (mem_dictDel hp)
    · exact le_trans (length_dictDel_le _ _) h.bound

theorem evict_lru_not_contains {s : StoreState α} {key : String}
    (hc : dictContains s.store key = false) :
    dictContains (evict_lru s).store key = false := by
  rcases evict_lru_cases s with ⟨-, he⟩ | ⟨b, -, he⟩
  · rw [he]; exact hc
  · rw [he]
    exact dictContains_dictDel_of_not hc

/-- When the cache is nonempty, eviction removes exactly one key: a key
with minimal access time, whose entry disappears entirely. -/
theorem evict_lru_shrinks {s : StoreState α}
    (hnd : (s.store.map Prod.fst).Nodup)
    (hsync : s.access_times.map Prod.fst = s.store.map Prod.fst)
    (hne : s.store ≠ []) :
    ∃ b, minPair s.access_times = some b ∧ b.1 ∈ s.store.map Prod.fst ∧
      b ∈ s.access_times ∧
      (∀ p ∈ s.access_times, b.2 ≤ p.2) ∧
      (evict_lru s).store = dictDel s.store b.1 ∧
      (evict_lru s).access_times = dictDel s.access_times b.1 ∧
      (evict_lru s).store.length = s.store.length - 1 := by
  have hat : s.access_times ≠ [] := by
    intro hx
    apply hne
    rw [hx] at hsync
    cases hs : s.store with
    | nil => rfl
    | cons q t => rw [hs] at hsync; simp at hsync
  rcases evict_lru_cases s with ⟨hx, -⟩ | ⟨b, hm, he⟩
  · exact absurd hx hat
  · obtain ⟨hmem, hmin⟩ := minPair_spec hm
    have hkey : b.1 ∈ s.store.map Prod.fst := by
      rw [← hsync]
      exact List.mem_map.2 ⟨b, hmem, rfl⟩
    refine ⟨b, hm, hkey, hmem, hmin, by rw [he], by rw [he], ?_⟩
    rw [he]
    exact length_dictDel_of_mem hnd hkey

end InvariantDefs

/-! ### Characterization of put on the three execution paths -/

section PutCharacterization

variable {α : Type}

open VersionedKeyValueStore

theorem put_snd_cached (s : StoreState α) (key : String) (value : α)
    {vs : List (VersionedValue α)} (hvs : dictGet s.store key = some vs) :
    (put s key value).2 =
      { s with db := (DatabaseLayer.put s.db key value s.clock).2,
               store := dictSet s.store key
                 (vs ++ [⟨value, mintedVersion s.db key, s.clock⟩]),
               access_times := dictSet s.access_times key s.clock } := by
  have hc : dictContains s.store key = true := dictGet_contains hvs
  unfold put
  simp only [hc, Bool.not_true, Bool.false_and, Bool.false_eq_true, if_false,
    hvs, dbPut_new_version_getD]

theorem put_snd_uncached_noevict (s : StoreState α) (key : String) (value : α)
    (hc : dictContains s.store key = false) (he : should_evict s = false) :
    (put s key value).2 =
      { s with db := (DatabaseLayer.put s.db key value s.clock).2,
               store := dictSet s.store key
                 [⟨value, mintedVersion s.db key, s.clock⟩],
               access_times := dictSet s.access_times key s.clock } := by
  have hg : dictGet s.store key = none := (dictGet_eq_none_iff _ _).2 hc
  have he2 : should_evict
      { s with db := (DatabaseLayer.put s.db key value s.clock).2 } = false := he
  unfold put
  simp only [hc, Bool.not_false, Bool.true_and, he2, Bool.false_eq_true,
    if_false, hg, dbPut_new_version_getD]

theorem put_snd_uncached_evict (s : StoreState α) (key : String) (value : α)
    (hc : dictContains s.store key = false) (he : should_evict s = true) :
    (put s key value).2 =
      { evict_lru s with
          db := (DatabaseLayer.put s.db key value s.clock).2,
          store := dictSet (evict_lru s).store key
            [⟨value, mintedVersion s.db key, s.clock⟩],
          access_times := dictSet (evict_lru s).access_times key s.clock } := by
  have he2 : should_evict
      { s with db := (DatabaseLayer.put s.db key value s.clock).2 } = true := he
  have hg : dictGet (evict_lru s).store key = none :=
    (dictGet_eq_none_iff _ _).2 (evict_lru_not_contains hc)
  unfold put
  simp only [hc, Bool.not_false, Bool.true_and, he2, if_true,
    evict_lru_db_set, hg, dbPut_new_version_getD, evict_lru_clock]

end PutCharacterization

/-! ### Characterization of get on its execution paths -/

section GetCharacterization

variable {α : Type}

open VersionedKeyValueStore

theorem gfd_db_none (s : StoreState α) (key : String) (ver : Option Nat)
    (hd : DatabaseLayer.get s.db key ver = none) :
    get_from_database s key ver = (none, s) := by
  unfold get_from_database
  simp only [hd]

theorem gfd_db_some_cached (s : StoreState α) (key : String) (ver : Option Nat)
    {row : VersionedValue α} (hd : DatabaseLayer.get s.db key ver = some row)
    {vs : List (VersionedValue α)} (hvs : dictGet s.store key = some vs) :
    get_from_database s key ver =
      (some ⟨row.value, row.version, row.timestamp, srcDatabase⟩,
       { s with store := dictSet s.store key
                  (vs ++ [⟨row.value, row.version, row.timestamp⟩]),
                access_times := dictSet s.access_times key s.clock }) := by
  have hc : dictContains s.store key = true := dictGet_contains hvs
  unfold get_from_database
  simp only [hd, hc, Bool.not_true, Bool.false_and, Bool.false_eq_true,
    if_false, hvs]

theorem gfd_db_some_uncached_noevict (s : StoreState α) (key : String)
    (ver : Option Nat) {row : VersionedValue α}
    (hd : DatabaseLayer.get s.db key ver = some row)
    (hc : dictContains s.store key = false) (he : should_evict s = false) :
    get_from_database s key ver =
      (some ⟨row.value, row.version, row.timestamp, srcDatabase⟩,
       { s with store := s.store ++
                  [(key, [⟨row.value, row.version, row.timestamp⟩])],
                access_times := dictSet s.access_times key s.clock }) := by
  have hg : dictGet s.store key = none := (dictGet_eq_none_iff _ _).2 hc
  unfold get_from_database
  simp only [hd, hc, Bool.not_false, Bool.true_and, he, Bool.false_eq_true,
    if_false, hg]

theorem gfd_db_some_uncached_evict (s : StoreState α) (key : String)
    (ver : Option Nat) {row : VersionedValue α}
    (hd : DatabaseLayer.get s.db key ver = some row)
    (hc : dictContains s.store key = false) (he : should_evict s = true) :
    get_from_database s key ver =
      (some ⟨row.value, row.version, row.timestamp, srcDatabase⟩,
       { evict_lru s with
           store := (evict_lru s).store ++
             [(key, [⟨row.value, row.version, row.timestamp⟩])],
           access_times := dictSet (evict_lru s).access_times key s.clock }) := by
  have hg : dictGet (evict_lru s).store key = none :=
    (dictGet_eq_none_iff _ _).2 (evict_lru_not_contains hc)
  unfold get_from_database
  simp only [hd, hc, Bool.not_false, Bool.true_and, he, if_true, hg,
    evict_lru_clock]

theorem get_cached_none (s : StoreState α) (key : String)
    {vs : List (VersionedValue α)} (hvs : dictGet s.store key = some vs) :
    VersionedKeyValueStore.get s key none =
      ((vs.getLast?).map (fun r => r.to_pydantic srcCache),
       { s with access_times := dictSet s.access_times key s.clock }) := by
  unfold VersionedKeyValueStore.get
  simp only [hvs]

theorem get_cached_found (s : StoreState α) (key : String) (v : Nat)
    {vs : List (VersionedValue α)} (hvs : dictGet s.store key = some vs)
    {r : VersionedValue α} (hr : vs.find? (fun r => r.version = v) = some r) :
    VersionedKeyValueStore.get s key (some v) =
      (some (r.to_pydantic srcCache),
       { s with access_times := dictSet s.access_times key s.clock }) := by
  unfold VersionedKeyValueStore.get
  simp only [hvs, hr]

theorem get_cached_missing (s : StoreState α) (key : String) (v : Nat)
    {vs : List (VersionedValue α)} (hvs : dictGet s.store key = some vs)
    (hr : vs.find? (fun r => r.version = v) = none) :
    VersionedKeyValueStore.get s key (some v) =
      get_from_database
        { s with access_times := dictSet s.access_times key s.clock }
        key (some v) := by
  unfold VersionedKeyValueStore.get
  simp only [hvs, hr]

theorem get_uncached (s : StoreState α) (key : String) (ver : Option Nat)
    (hc : dictContains s.store key = false) :
    VersionedKeyValueStore.get s key ver = get_from_database s key ver := by
  have hg : dictGet s.store key = none := (dictGet_eq_none_iff _ _).2 hc
  unfold VersionedKeyValueStore.get
  simp only [hg]

end GetCharacterization

/-! ### Invariant preservation -/

section InvariantPreservation

variable {α : Type}

open VersionedKeyValueStore

theorem dictSet_not_contains_eq_append {κ β : Type} [DecidableEq κ]
    {d : List (κ × β)} {k : κ} (v : β) (hc : dictContains d k = false) :
    dictSet d k v = d ++ [(k, v)] := by
  unfold dictSet
  rw [if_neg (by simp [hc])]

theorem evict_len_succ {s : StoreState α} (h : Inv s) :
    (evict_lru s).store.length + 1 ≤ max s.max_cache_size 1 := by
  by_cases hne : s.store = []
  · have hz : (evict_lru s).store.length = 0 := by
      rcases evict_lru_cases s with ⟨-, hcase⟩ | ⟨b, -, hcase⟩ <;>
        rw [hcase] <;> simp [hne, dictDel]
    rw [hz]
    exact le_max_right _ _
  · obtain ⟨b, -, -, -, -, -, -, hlen⟩ := evict_lru_shrinks h.nodup h.sync hne
    rw [hlen]
    have h1 : 1 ≤ s.store.length := by
      cases hs : s.store with
      | nil => exact absurd hs hne
      | cons q t => simp [hs]
    calc s.store.length - 1 + 1 = s.store.length := by omega
    _ ≤ _ := h.bound

theorem Inv_touch {s : StoreState α} (h : Inv s) {key : String}
    (hc : dictContains s.store key = true) (t : Nat) :
    Inv { s with access_times := dictSet s.access_times key t } := by
  have hat : dictContains s.access_times key = true := by
    rw [dictContains_true_iff] at hc ⊢
    rw [h.sync]
    exact hc
  refine ⟨h.nodup, ?_, h.entriesNonempty, h.inDb, h.dbwf, h.bound⟩
  rw [map_fst_dictSet_contains _ _ _ hat]
  exact h.sync

theorem Inv_insert_fresh {s : StoreState α} (h : Inv s) {key : String}
    (hc : dictContains s.store key = false) (db2 : Db α) (hwf2 : DbWF db2)
    (hsub : ∀ k, ∀ r ∈ s.db k, r ∈ db2 k) {rec : VersionedValue α}
    (hrec : ∃ dr ∈ db2 key, dr.version = rec.version) (t : Nat)
    (hlen : s.store.length + 1 ≤ max s.max_cache_size 1) :
    Inv { s with db := db2, store := dictSet s.store key [rec],
                 access_times := dictSet s.access_times key t } := by
  have hat : dictContains s.access_times key = false := by
    rw [dictContains_false_iff] at hc ⊢
    rw [h.sync]
    exact hc
  refine ⟨?_, ?_, ?_, ?_, hwf2, ?_⟩
  · exact nodup_map_fst_dictSet _ _ _ h.nodup
  · rw [map_fst_dictSet_not_contains _ _ _ hat,
      map_fst_dictSet_not_contains _ _ _ hc, h.sync]
  · intro p hp
    rcases mem_dictSet hp with hp | hp
    · rw [hp]; simp
    · exact h.entriesNonempty p hp
  · intro p hp r hr
    rcases mem_dictSet hp with hp | hp
    · rw [hp] at hr ⊢
      simp only [List.mem_singleton] at hr
      subst hr
      exact hrec
    · obtain ⟨dr, hdr, hv⟩ := h.inDb p hp r hr
      exact ⟨dr, hsub p.1 dr hdr, hv⟩
  · rw [length_dictSet_not_contains _ hc]
    exact hlen

theorem Inv_append_existing {s : StoreState α} (h : Inv s) {key : String}
    {vs : List (VersionedValue α)} (hvs : dictGet s.store key = some vs)
    (db2 : Db α) (hwf2 : DbWF db2)
    (hsub : ∀ k, ∀ r ∈ s.db k, r ∈ db2 k) {rec : VersionedValue α}
    (hrec : ∃ dr ∈ db2 key, dr.version = rec.version) (t : Nat) :
    Inv { s with db := db2, store := dictSet s.store key (vs ++ [rec]),
                 access_times := dictSet s.access_times key t } := by
  have hc : dictContains s.store key = true := dictGet_contains hvs
  have hat : dictContains s.access_times key = true := by
    rw [dictContains_true_iff] at hc ⊢
    rw [h.sync]
    exact hc
  have hmem : (key, vs) ∈ s.store := dictGet_mem hvs
  refine ⟨?_, ?_, ?_, ?_, hwf2, ?_⟩
  · exact nodup_map_fst_dictSet _ _ _ h.nodup
  · rw [map_fst_dictSet_contains _ _ _ hat,
      map_fst_dictSet_contains _ _ _ hc, h.sync]
  · intro p hp
    rcases mem_dictSet hp with hp | hp
    · rw [hp]; simp
    · exact h.entriesNonempty p hp
  · intro p hp r hr
    rcases mem_dictSet hp with hp | hp
    · rw [hp] at hr ⊢
      rcases List.mem_append.1 hr with hr | hr
      · obtain ⟨dr, hdr, hv⟩ := h.inDb (key, vs) hmem r hr
        exact ⟨dr, hsub key dr hdr, hv⟩
      · rw [List.mem_singleton] at hr
        subst hr
        exact hrec
    · obtain ⟨dr, hdr, hv⟩ := h.inDb p hp r hr
      exact ⟨dr, hsub p.1 dr hdr, hv⟩
  · rw [length_dictSet_contains _ hc]
    exact h.bound

theorem Inv_put {s : StoreState α} (h : Inv s) (key : String) (value : α) :
    Inv (put s key value).2 := by
  have hwf2 := DbWF_dbPut h.dbwf key value s.clock
  have hsub : ∀ k, ∀ r ∈ s.db k,
      r ∈ (DatabaseLayer.put s.db key value s.clock).2 k :=
    fun k r hr => dbPut_mem_mono s.db key value s.clock k hr
  have hrec : ∃ dr ∈ (DatabaseLayer.put s.db key value s.clock).2 key,
      dr.version = (⟨value, mintedVersion s.db key, s.clock⟩ :
        VersionedValue α).version :=
    ⟨_, dbPut_minted_mem s.db key value s.clock, rfl⟩
  by_cases hc : dictContains s.store key = true
  · obtain ⟨vs, hvs⟩ := Option.isSome_iff_exists.1 (dictGet_isSome_of_contains hc)
    rw [put_snd_cached s key value hvs]
    exact Inv_append_existing h hvs _ hwf2 hsub hrec s.clock
  · rw [Bool.not_eq_true] at hc
    cases he : should_evict s with
    | false =>
        rw [put_snd_uncached_noevict s key value hc he]
        have hlen : s.store.length + 1 ≤ max s.max_cache_size 1 := by
          have : ¬ (s.max_cache_size ≤ s.store.length) := by
            intro hx
            rw [show should_evict s = decide
              (s.max_cache_size ≤ s.store.length) from rfl] at he
            rw [decide_eq_true hx] at he
            cases he
          calc s.store.length + 1 ≤ s.max_cache_size := by omega
          _ ≤ _ := le_max_left _ _
        exact Inv_insert_fresh h hc _ hwf2 hsub hrec s.clock hlen
    | true =>
        rw [put_snd_uncached_evict s key value hc he]
        have hse := Inv_evict h
        have hc2 : dictContains (evict_lru s).store key = false :=
          evict_lru_not_contains hc
        have hlen := evict_len_succ h
        rw [← evict_lru_max s] at hlen
        have hsub2 : ∀ k, ∀ r ∈ (evict_lru s).db k,
            r ∈ (DatabaseLayer.put s.db key value s.clock).2 k := by
          rw [evict_lru_db]
          exact hsub
        have hrec2 : ∃ dr ∈ (DatabaseLayer.put s.db key value s.clock).2 key,
            dr.version = (⟨value, mintedVersion s.db key, s.clock⟩ :
              VersionedValue α).version := hrec
        exact Inv_insert_fresh hse hc2 _ hwf2 hsub2 hrec2 s.clock hlen

theorem dbGet_mem {db : Db α} {key : String} {ver : Option Nat}
    {row : VersionedValue α} (h : DatabaseLayer.get db key ver = some row) :
    row ∈ db key := by
  unfold DatabaseLayer.get at h
  cases ver with
  | none => exact latestRow_mem h
  | some v => exact List.mem_of_find?_eq_some h

theorem should_evict_false_lt {s : StoreState α}
    (he : should_evict s = false) : s.store.length < s.max_cache_size := by
  have : ¬ (s.max_cache_size ≤ s.store.length) := by
    intro hx
    rw [show should_evict s = decide
      (s.max_cache_size ≤ s.store.length) from rfl] at he
    rw [decide_eq_true hx] at he
    cases he
  omega

theorem Inv_gfd {s : StoreState α} (h : Inv s) (key : String)
    (ver : Option Nat) : Inv (get_from_database s key ver).2 := by
  cases hd : DatabaseLayer.get s.db key ver with
  | none => rw [gfd_db_none s key ver hd]; exact h
  | some row =>
      have hmem : row ∈ s.db key := dbGet_mem hd
      have hrec : ∃ dr ∈ s.db key, dr.version =
          (⟨row.value, row.version, row.timestamp⟩ :
            VersionedValue α).version := ⟨row, hmem, rfl⟩
      by_cases hc : dictContains s.store key = true
      · obtain ⟨vs, hvs⟩ :=
          Option.isSome_iff_exists.1 (dictGet_isSome_of_contains hc)
        rw [gfd_db_some_cached s key ver hd hvs]
        exact Inv_append_existing h hvs s.db h.dbwf
          (fun k r hr => hr) hrec s.clock
      · rw [Bool.not_eq_true] at hc
        cases he : should_evict s with
        | false =>
            rw [gfd_db_some_uncached_noevict s key ver hd hc he]
            have hlen : s.store.length + 1 ≤ max s.max_cache_size 1 := by
              have := should_evict_false_lt he
              calc s.store.length + 1 ≤ s.max_cache_size := by omega
              _ ≤ _ := le_max_left _ _
            have hres := Inv_insert_fresh h hc s.db h.dbwf
              (fun k r hr => hr) hrec s.clock hlen
            rw [dictSet_not_contains_eq_append _ hc] at hres
            exact hres
        | true =>
            rw [gfd_db_some_uncached_evict s key ver hd hc he]
            have hse := Inv_evict h
            have hc2 : dictContains (evict_lru s).store key = false :=
              evict_lru_not_contains hc
            have hlen := evict_len_succ h
            rw [← evict_lru_max s] at hlen
            have hrec2 : ∃ dr ∈ (evict_lru s).db key, dr.version =
                (⟨row.value, row.version, row.timestamp⟩ :
                  VersionedValue α).version := by
              rw [evict_lru_db]
              exact hrec
            have hres := Inv_insert_fresh hse hc2 (evict_lru s).db hse.dbwf
              (fun k r hr => hr) hrec2 s.clock hlen
            rw [dictSet_not_contains_eq_append _ hc2] at hres
            exact hres

theorem Inv_get {s : StoreState α} (h : Inv s) (key : String)
    (ver : Option Nat) : Inv (VersionedKeyValueStore.get s key ver).2 := by
  by_cases hc : dictContains s.store key = true
  · obtain ⟨vs, hvs⟩ :=
      Option.isSome_iff_exists.1 (dictGet_isSome_of_contains hc)
    cases ver with
    | none =>
        rw [get_cached_none s key hvs]
        exact Inv_touch h hc s.clock
    | some v =>
        cases hr : vs.find? (fun r => r.version = v) with
        | some r =>
            rw [get_cached_found s key v hvs hr]
            exact Inv_touch h hc s.clock
        | none =>
            rw [get_cached_missing s key v hvs hr]
            exact Inv_gfd (Inv_touch h hc s.clock) key (some v)
  · rw [Bool.not_eq_true] at hc
    rw [get_uncached s key ver hc]
    exact Inv_gfd h key ver

theorem Inv_clock_set {s : StoreState α} (h : Inv s) (c : Nat) :
    Inv { s with clock := c } :=
  ⟨h.nodup, h.sync, h.entriesNonempty, h.inDb, h.dbwf, h.bound⟩

theorem Inv_stepOp {s : StoreState α} (h : Inv s) (op : StoreOp α) :
    Inv (stepOp s op) := by
  cases op with
  | put k v => exact Inv_clock_set (Inv_put h k v) _
  | get k ver => exact Inv_clock_set (Inv_get h k ver) _

theorem Inv_initState (m : Nat) : Inv (initState α m) := by
  refine ⟨?_, rfl, ?_, ?_, DbWF_empty, ?_⟩ <;> simp [initState]

theorem Inv_runOps (s : StoreState α) (h : Inv s) (ops : List (StoreOp α)) :
    Inv (runOps s ops) := by
  induction ops generalizing s with
  | nil => exact h
  | cons op t ih => exact ih _ (Inv_stepOp h op)

theorem Inv_run_init (m : Nat) (ops : List (StoreOp α)) :
    Inv (runOps (initState α m) ops) :=
  Inv_runOps _ (Inv_initState m) ops

end InvariantPreservation

/-! ### Support lemmas for the claim theorems -/

section ClaimSupport

variable {α : Type}

open VersionedKeyValueStore

theorem getLast?_mem {γ : Type} {l : List γ} {a : γ}
    (h : l.getLast? = some a) : a ∈ l := by
  obtain ⟨hne, he⟩ := List.mem_getLast?_eq_getLast (Option.mem_def.2 h)
  rw [he]
  exact List.getLast_mem hne

theorem dictGet_of_mem_nodup {κ β : Type} [DecidableEq κ] {d : List (κ × β)}
    (hnd : (d.map Prod.fst).Nodup) {p : κ × β} (hp : p ∈ d) :
    dictGet d p.1 = some p.2 := by
  induction d with
  | nil => simp at hp
  | cons q t ih =>
      rcases List.mem_cons.1 hp with hp | hp
      · subst hp
        unfold dictGet
        rw [List.find?_cons_of_pos _ (by simp)]
        rfl
      · have hq : ¬ q.1 = p.1 := by
          intro he
          rw [List.map_cons] at hnd
          have := List.nodup_cons.1 hnd
          apply this.1
          rw [he]
          exact List.mem_map.2 ⟨p, hp, rfl⟩
        unfold dictGet
        rw [List.find?_cons_of_neg _ (by simp [hq])]
        exact ih (List.nodup_cons.1 (List.map_cons Prod.fst q t ▸ hnd)).2 hp

theorem map_fst_dictDel_erase {κ β : Type} [DecidableEq κ]
    {d : List (κ × β)} {k : κ} (hnd : (d.map Prod.fst).Nodup) :
    (dictDel d k).map Prod.fst = (d.map Prod.fst).erase k := by
  rw [map_fst_dictDel, hnd.erase_eq_filter]
  apply List.filter_congr
  intro a _
  by_cases ha : a = k <;> simp [ha]

theorem mintedVersion_eq_max_succ (db : Db α) (key : String) :
    mintedVersion db key = maxVersion (db key) + 1 := by
  unfold mintedVersion topVersion
  by_cases he : (db key).isEmpty
  · rw [if_pos he]
    rw [List.isEmpty_iff] at he
    rw [he]
    rfl
  · rw [if_neg he]

theorem dbPut_minted_getD (db : Db α) (key : String) (value : α) (now : Nat) :
    ((DatabaseLayer.put db key value now).1.new_version).getD
      (((DatabaseLayer.put db key value now).1.version).getD 0) =
      mintedVersion db key := by
  unfold DatabaseLayer.put mintedVersion
  cases topVersion (db key) <;> rfl

theorem gfd_fst_eq (s : StoreState α) (key : String) (ver : Option Nat) :
    (get_from_database s key ver).1 =
      (DatabaseLayer.get s.db key ver).map
        (fun row => ⟨row.value, row.version, row.timestamp, srcDatabase⟩) := by
  unfold get_from_database
  cases DatabaseLayer.get s.db key ver <;> rfl

theorem gfd_max (s : StoreState α) (key : String) (ver : Option Nat) :
    ((get_from_database s key ver).2).max_cache_size = s.max_cache_size := by
  cases hd : DatabaseLayer.get s.db key ver with
  | none => rw [gfd_db_none s key ver hd]
  | some row =>
      by_cases hc : dictContains s.store key = true
      · obtain ⟨vs, hvs⟩ :=
          Option.isSome_iff_exists.1 (dictGet_isSome_of_contains hc)
        rw [gfd_db_some_cached s key ver hd hvs]
      · rw [Bool.not_eq_true] at hc
        cases he : should_evict s with
        | false => rw [gfd_db_some_uncached_noevict s key ver hd hc he]
        | true =>
            rw [gfd_db_some_uncached_evict s key ver hd hc he]
            exact evict_lru_max s

theorem put_max (s : StoreState α) (key : String) (value : α) :
    ((put s key value).2).max_cache_size = s.max_cache_size := by
  by_cases hc : dictContains s.store key = true
  · obtain ⟨vs, hvs⟩ :=
      Option.isSome_iff_exists.1 (dictGet_isSome_of_contains hc)
    rw [put_snd_cached s key value hvs]
  · rw [Bool.not_eq_true] at hc
    cases he : should_evict s with
    | false => rw [put_snd_uncached_noevict s key value hc he]
    | true =>
        rw [put_snd_uncached_evict s key value hc he]
        exact evict_lru_max s

theorem get_max (s : StoreState α) (key : String) (ver : Option Nat) :
    ((VersionedKeyValueStore.get s key ver).2).max_cache_size =
      s.max_cache_size := by
  by_cases hc : dictContains s.store key = true
  · obtain ⟨vs, hvs⟩ :=
      Option.isSome_iff_exists.1 (dictGet_isSome_of_contains hc)
    cases ver with
    | none => rw [get_cached_none s key hvs]
    | some v =>
        cases hr : vs.find? (fun r => r.version = v) with
        | some r => rw [get_cached_found s key v hvs hr]
        | none =>
            rw [get_cached_missing s key v hvs hr]
            exact gfd_max _ key (some v)
  · rw [Bool.not_eq_true] at hc
    rw [get_uncached s key ver hc]
    exact gfd_max s key ver

theorem stepOp_max (s : StoreState α) (op : StoreOp α) :
    (stepOp s op).max_cache_size = s.max_cache_size := by
  cases op with
  | put k v => exact put_max s k v
  | get k ver => exact get_max s k ver

theorem runOps_max (s : StoreState α) (ops : List (StoreOp α)) :
    (runOps s ops).max_cache_size = s.max_cache_size := by
  induction ops generalizing s with
  | nil => rfl
  | cons op t ih => rw [runOps, List.foldl_cons, ← runOps, ih, stepOp_max]

/-- Every cached version number is bounded by the number of database rows
for its key. -/
theorem version_le_dbLen {s : StoreState α} (h : Inv s) {key : String}
    {vs : List (VersionedValue α)} (hmem : (key, vs) ∈ s.store)
    {r : VersionedValue α} (hr : r ∈ vs) : r.version ≤ (s.db key).length := by
  obtain ⟨dr, hdr, hv⟩ := h.inDb (key, vs) hmem r hr
  have hmv : dr.version ∈ (s.db key).map (fun r => r.version) :=
    List.mem_map.2 ⟨dr, hdr, rfl⟩
  rw [h.dbwf key] at hmv
  have := List.mem_range'_1.1 hmv
  omega

end ClaimSupport

/-! ### The last-is-highest cache entry invariant -/

section SortedEntries

variable {α : Type}

open VersionedKeyValueStore

theorem lastIsHighest_append {vs : List (VersionedValue α)}
    {vv : VersionedValue α} (hall : ∀ r ∈ vs, r.version ≤ vv.version) :
    lastIsHighest (vs ++ [vv]) = true := by
  unfold lastIsHighest
  rw [List.getLast?_concat, List.all_eq_true]
  intro r hr
  rcases List.mem_append.1 hr with hr | hr
  · simpa using hall r hr
  · rw [List.mem_singleton] at hr
    subst hr
    simp

theorem lastIsHighest_singleton (vv : VersionedValue α) :
    lastIsHighest [vv] = true := by
  unfold lastIsHighest
  simp

theorem SortedCache_evict {s : StoreState α} (h : SortedCache s) :
    SortedCache (evict_lru s) := by
  rcases evict_lru_cases s with ⟨-, he⟩ | ⟨b, -, he⟩ <;> rw [he]
  · exact h
  · intro p hp
    exact h p (mem_dictDel hp)

theorem SortedCache_put {s : StoreState α} (hInv : Inv s) (h : SortedCache s)
    (key : String) (value : α) : SortedCache (put s key value).2 := by
  by_cases hc : dictContains s.store key = true
  · obtain ⟨vs, hvs⟩ :=
      Option.isSome_iff_exists.1 (dictGet_isSome_of_contains hc)
    rw [put_snd_cached s key value hvs]
    intro p hp
    rcases mem_dictSet hp with hp | hp
    · rw [hp]
      apply lastIsHighest_append
      intro r hr
      have hle := version_le_dbLen hInv (dictGet_mem hvs) hr
      have hm := mintedVersion_eq_of_wf hInv.dbwf key
      dsimp only
      omega
    · exact h p hp
  · rw [Bool.not_eq_true] at hc
    cases he : should_evict s with
    | false =>
        rw [put_snd_uncached_noevict s key value hc he]
        intro p hp
        rcases mem_dictSet hp with hp | hp
        · rw [hp]
          exact lastIsHighest_singleton _
        · exact h p hp
    | true =>
        rw [put_snd_uncached_evict s key value hc he]
        intro p hp
        rcases mem_dictSet hp with hp | hp
        · rw [hp]
          exact lastIsHighest_singleton _
        · exact SortedCache_evict h p hp

theorem SortedCache_get_none {s : StoreState α} (h : SortedCache s)
    (key : String) :
    SortedCache (VersionedKeyValueStore.get s key none).2 := by
  by_cases hc : dictContains s.store key = true
  · obtain ⟨vs, hvs⟩ :=
      Option.isSome_iff_exists.1 (dictGet_isSome_of_contains hc)
    rw [get_cached_none s key hvs]
    intro p hp
    exact h p hp
  · rw [Bool.not_eq_true] at hc
    rw [get_uncached s key none hc]
    cases hd : DatabaseLayer.get s.db key none with
    | none =>
        rw [gfd_db_none s key none hd]
        exact h
    | some row =>
        cases he : should_evict s with
        | false =>
            rw [gfd_db_some_uncached_noevict s key none hd hc he]
            intro p hp
            rcases List.mem_append.1 hp with hp | hp
            · exact h p hp
            · rw [List.mem_singleton] at hp
              rw [hp]
              exact lastIsHighest_singleton _
        | true =>
            rw [gfd_db_some_uncached_evict s key none hd hc he]
            intro p hp
            rcases List.mem_append.1 hp with hp | hp
            · exact SortedCache_evict h p hp
            · rw [List.mem_singleton] at hp
              rw [hp]
              exact lastIsHighest_singleton _

theorem SortedCache_stepOp {s : StoreState α} (hInv : Inv s)
    (h : SortedCache s) {op : StoreOp α} (hop : RestrictedOp op) :
    SortedCache (stepOp s op) := by
  cases op with
  | put k v =>
      intro p hp
      exact SortedCache_put hInv h k v p hp
  | get k ver =>
      have hv : ver = none := hop
      subst hv
      intro p hp
      exact SortedCache_get_none h k p hp

theorem SortedCache_runOps (s : StoreState α) (hInv : Inv s)
    (h : SortedCache s) (ops : List (StoreOp α))
    (hops : ∀ op ∈ ops, RestrictedOp op) : SortedCache (runOps s ops) := by
  induction ops generalizing s with
  | nil => exact h
  | cons op t ih =>
      rw [runOps, List.foldl_cons, ← runOps]
      exact ih _ (Inv_stepOp hInv op)
        (SortedCache_stepOp hInv h (hops op (List.mem_cons_self op t)))
        (fun q hq => hops q (List.mem_cons_of_mem op hq))

theorem SortedCache_initState (m : Nat) : SortedCache (initState α m) := by
  intro p hp
  simp [initState] at hp

end SortedEntries

/-! ### Not-found characterization for get -/

section NotFound

variable {α : Type}

open VersionedKeyValueStore

theorem dbGet_none_iff (db : Db α) (key : String) (ver : Option Nat) :
    DatabaseLayer.get db key ver = none ↔
      (match ver with
       | none => db key = []
       | some v => ∀ r ∈ db key, ¬ r.version = v) := by
  unfold DatabaseLayer.get
  cases ver with
  | none => exact latestRow_eq_none_iff _
  | some v =>
      rw [List.find?_eq_none]
      simp

theorem get_none_iff {s : StoreState α} (h : Inv s) (key : String)
    (ver : Option Nat) :
    (VersionedKeyValueStore.get s key ver).1 = none ↔
      (match ver with
       | none => s.db key = []
       | some v => ∀ r ∈ s.db key, ¬ r.version = v) := by
  by_cases hc : dictContains s.store key = true
  · obtain ⟨vs, hvs⟩ :=
      Option.isSome_iff_exists.1 (dictGet_isSome_of_contains hc)
    have hmem : (key, vs) ∈ s.store := dictGet_mem hvs
    have hne : vs ≠ [] := h.entriesNonempty (key, vs) hmem
    have hdbne : s.db key ≠ [] := by
      obtain ⟨r, hr⟩ := List.exists_mem_of_ne_nil vs hne
      obtain ⟨dr, hdr, -⟩ := h.inDb (key, vs) hmem r hr
      exact List.ne_nil_of_mem hdr
    cases ver with
    | none =>
        rw [get_cached_none s key hvs]
        apply iff_of_false
        · dsimp only
          rw [Option.map_eq_none']
          intro hx
          exact hne (List.getLast?_eq_none_iff.1 hx)
        · exact hdbne
    | some v =>
        cases hr : vs.find? (fun r => r.version = v) with
        | some r =>
            rw [get_cached_found s key v hvs hr]
            apply iff_of_false
            · simp
            · intro hall
              have hrv : r.version = v := by
                have := List.find?_some hr
                simpa using this
              obtain ⟨dr, hdr, hv⟩ :=
                h.inDb (key, vs) hmem r (List.mem_of_find?_eq_some hr)
              exact hall dr hdr (hv.trans hrv)
        | none =>
            rw [get_cached_missing s key v hvs hr, gfd_fst_eq,
              Option.map_eq_none']
            exact dbGet_none_iff s.db key (some v)
  · rw [Bool.not_eq_true] at hc
    rw [get_uncached s key ver hc, gfd_fst_eq, Option.map_eq_none']
    exact dbGet_none_iff s.db key ver

end NotFound

/-! ### Pure sequences of database writes -/

section DbRuns

variable {α : Type}

theorem dbPut_length (db : Db α) (key : String) (value : α) (now : Nat)
    (k : String) :
    ((DatabaseLayer.put db key value now).2 k).length =
      (db k).length + (if k = key then 1 else 0) := by
  rw [dbPut_db_eq]
  dsimp only
  by_cases hk : k = key <;> simp [hk]

theorem foldl_dbPutStep_wf (ops : List (String × α)) (st : Db α × Nat)
    (h : DbWF st.1) : DbWF ((ops.foldl dbPutStep st).1) := by
  induction ops generalizing st with
  | nil => exact h
  | cons op t ih =>
      rw [List.foldl_cons]
      exact ih _ (DbWF_dbPut h op.1 op.2 st.2)

theorem foldl_dbPutStep_length (ops : List (String × α)) (st : Db α × Nat)
    (k : String) :
    (((ops.foldl dbPutStep st).1) k).length =
      (st.1 k).length + (ops.filter (fun op => op.1 = k)).length := by
  induction ops generalizing st with
  | nil => simp
  | cons op t ih =>
      rw [List.foldl_cons, List.filter_cons]
      by_cases hk : op.1 = k
      · rw [if_pos (by simp [hk])]
        rw [ih]
        show ((DatabaseLayer.put st.1 op.1 op.2 st.2).2 k).length + _ = _
        rw [dbPut_length]
        rw [if_pos hk.symm]
        simp [Nat.add_comm, Nat.add_assoc, Nat.add_left_comm]
      · rw [if_neg (by simp [hk])]
        rw [ih]
        show ((DatabaseLayer.put st.1 op.1 op.2 st.2).2 k).length + _ = _
        rw [dbPut_length]
        rw [if_neg (fun he => hk he.symm)]
        omega

theorem runDbPuts_wf (ops : List (String × α)) : DbWF (runDbPuts ops) :=
  foldl_dbPutStep_wf ops _ DbWF_empty

theorem runDbPuts_length (ops : List (String × α)) (k : String) :
    (runDbPuts ops k).length = (ops.filter (fun op => op.1 = k)).length := by
  unfold runDbPuts
  rw [foldl_dbPutStep_length]
  show (Db.empty α k).length + _ = _
  rw [show Db.empty α k = [] from rfl]
  simp

end DbRuns

/-! ### Lemmas for the maximum of cached versions -/

section MaxCached

variable {α : Type}

theorem foldl_max_le (l : List (VersionedValue α)) {a c : Nat} (ha : a ≤ c)
    (h : ∀ r ∈ l, r.version ≤ c) :
    l.foldl (fun a r => max a r.version) a ≤ c := by
  induction l generalizing a with
  | nil => exact ha
  | cons r t ih =>
      rw [List.foldl_cons]
      exact ih (max_le ha (h r (List.mem_cons_self r t)))
        (fun q hq => h q (List.mem_cons_of_mem r hq))

theorem maxVersion_le {l : List (VersionedValue α)} {c : Nat}
    (h : ∀ r ∈ l, r.version ≤ c) : maxVersion l ≤ c :=
  foldl_max_le l (Nat.zero_le c) h

theorem lastIsHighest_all {vs : List (VersionedValue α)}
    (h : lastIsHighest vs = true) {l : VersionedValue α}
    (hl : vs.getLast? = some l) : ∀ r ∈ vs, r.version ≤ l.version := by
  unfold lastIsHighest at h
  rw [hl] at h
  rw [List.all_eq_true] at h
  intro r hr
  simpa using h r hr

end MaxCached

/-! ### Claim theorems for the versioned store -/

section StoreClaims

open VersionedKeyValueStore

/-- C1, counterexample: in the reachable state cexState the key is cached,
yet get with version unspecified does not return the highest cached
version (it returns version 1 while version 2 is cached). -/
theorem C1_counterexample :
    dictContains cexState.store keyK = true ∧
    ¬ (((VersionedKeyValueStore.get cexState keyK none).1).map
          (fun r => r.version) =
        (dictGet cexState.store keyK).map (fun vs => maxVersion vs)) := by
  decide

/-- C1, amended: when a key is cached, get with version unspecified returns
the LAST record of the cached version sequence tagged source=cache; this
record carries the highest cached version whenever the entry satisfies the
last-is-highest invariant. -/
theorem C1_amended_get_cached_latest (α : Type) (s : StoreState α)
    (key : String) {vs : List (VersionedValue α)}
    (hvs : dictGet s.store key = some vs) {last : VersionedValue α}
    (hlast : vs.getLast? = some last) :
    (VersionedKeyValueStore.get s key none).1 =
      some (last.to_pydantic srcCache) ∧
    (lastIsHighest vs = true → last.version = maxVersion vs) := by
  constructor
  · rw [get_cached_none s key hvs, hlast]
    rfl
  · intro hs
    have hmem : last ∈ vs := getLast?_mem hlast
    have h1 : last.version ≤ maxVersion vs := maxVersion_ge hmem
    have h2 : maxVersion vs ≤ last.version :=
      maxVersion_le (lastIsHighest_all hs hlast)
    omega

/-- Witness for the amended C1 at a concrete reachable state. -/
theorem C1_amended_witness :
    dictGet witState.store keyK =
      some [(⟨7, 1, 0⟩ : VersionedValue Nat)] ∧
    ([(⟨7, 1, 0⟩ : VersionedValue Nat)].getLast? = some ⟨7, 1, 0⟩) ∧
    (VersionedKeyValueStore.get witState keyK none).1 =
      some ((⟨7, 1, 0⟩ : VersionedValue Nat).to_pydantic srcCache) :=
  ⟨by decide, by decide,
   (@C1_amended_get_cached_latest Nat witState keyK [⟨7, 1, 0⟩] (by decide)
     ⟨7, 1, 0⟩ (by decide)).1⟩

/-- C2, counterexample: cexState is reachable and its cached entry for the
key lists versions [2, 1], so the last element is not the highest cached
version. -/
theorem C2_counterexample :
    ((dictGet cexState.store keyK).getD []).map (fun r => r.version) =
      [2, 1] ∧
    lastIsHighest ((dictGet cexState.store keyK).getD []) = false := by
  decide

/-- C2, amended: in every reachable state, cached entries are nonempty;
and for operation sequences made of puts and gets with version unspecified
(no cache-aside population of a specific historical version into an
existing entry), the last element of every cached entry carries the
highest cached version. -/
theorem C2_amended_cache_entry_invariant (α : Type) (m : Nat)
    (ops : List (StoreOp α)) :
    (∀ p ∈ (runOps (initState α m) ops).store,
       p.2 ≠ ([] : List (VersionedValue α))) ∧
    ((∀ op ∈ ops, RestrictedOp op) →
      ∀ p ∈ (runOps (initState α m) ops).store,
        lastIsHighest p.2 = true) := by
  constructor
  · exact (Inv_run_init m ops).entriesNonempty
  · intro hops
    exact SortedCache_runOps _ (Inv_initState m) (SortedCache_initState m)
      ops hops

/-- Witness for the amended C2: a concrete restricted run in which the
cached entry for the key is [version 1, version 2], whose last element is
the highest. -/
theorem C2_amended_witness :
    (∀ op ∈ ([.put keyK 1, .put keyK 2, .get keyK none] :
        List (StoreOp Nat)), RestrictedOp op) ∧
    lastIsHighest [(⟨1, 1, 0⟩ : VersionedValue Nat), ⟨2, 2, 1⟩] = true := by
  have hops : ∀ op ∈ ([.put keyK 1, .put keyK 2, .get keyK none] :
      List (StoreOp Nat)), RestrictedOp op := by
    intro op hop
    rcases List.mem_cons.1 hop with h | h
    · subst h; trivial
    · rcases List.mem_cons.1 h with h2 | h2
      · subst h2; trivial
      · rcases List.mem_cons.1 h2 with h3 | h3
        · subst h3; rfl
        · simp at h3
  refine ⟨hops, ?_⟩
  have h := (C2_amended_cache_entry_invariant Nat 1
    [.put keyK 1, .put keyK 2, .get keyK none]).2 hops
  exact h (keyK, [⟨1, 1, 0⟩, ⟨2, 2, 1⟩]) (by decide)

/-- C3, counterexample: with max_cache_size = 0 a single put leaves one
key in the cache, exceeding the configured bound. -/
theorem C3_counterexample :
    (runOps (initState Nat 0) [.put keyK 5]).store.length = 1 ∧
    ¬ ((runOps (initState Nat 0) [.put keyK 5]).store.length ≤
        (initState Nat 0).max_cache_size) := by
  decide

/-- C3, amended: provided max_cache_size is at least 1, the number of
distinct cached keys never exceeds max_cache_size after any operation
sequence from the empty store (with max_cache_size = 0 the cache can
still hold one key). -/
theorem C3_amended_cache_bound (α : Type) (m : Nat)
    (ops : List (StoreOp α)) (hm : 1 ≤ m) :
    (runOps (initState α m) ops).store.length ≤ m := by
  have h := (Inv_run_init m ops).bound
  rw [runOps_max] at h
  rw [show (initState α m).max_cache_size = m from rfl] at h
  rwa [max_eq_left hm] at h

/-- Witness for the amended C3 at a concrete overfull run. -/
theorem C3_amended_witness :
    1 ≤ 2 ∧
    (runOps (initState Nat 2)
      [.put keyK 1, .put keyJ 2, .put keyA 3]).store.length ≤ 2 :=
  ⟨by decide, C3_amended_cache_bound Nat 2
    [.put keyK 1, .put keyJ 2, .put keyA 3] (by decide)⟩

/-- C5: on a well-formed cache state (distinct keys, access-time index in
sync): puts and gets touching an already-cached key never change the set
of cached keys (no eviction); a put of a fresh key below capacity only
appends that key; a put of a fresh key at or above capacity removes
exactly the key with minimal (oldest) access time — its whole entry — and
appends the new key; a get of a fresh key below capacity at most appends
it; a get of a fresh key at or above capacity either changes nothing (a
database miss) or evicts exactly the minimal-access-time key. -/
theorem C5_lru_eviction (α : Type) (s : StoreState α)
    (hnd : (s.store.map Prod.fst).Nodup)
    (hsync : s.access_times.map Prod.fst = s.store.map Prod.fst) :
    (∀ key value, dictContains s.store key = true →
       ((VersionedKeyValueStore.put s key value).2).store.map Prod.fst =
         s.store.map Prod.fst) ∧
    (∀ key ver, dictContains s.store key = true →
       ((VersionedKeyValueStore.get s key ver).2).store.map Prod.fst =
         s.store.map Prod.fst) ∧
    (∀ key value, dictContains s.store key = false →
       s.store.length < s.max_cache_size →
       ((VersionedKeyValueStore.put s key value).2).store.map Prod.fst =
         s.store.map Prod.fst ++ [key]) ∧
    (∀ key value, dictContains s.store key = false →
       s.max_cache_size ≤ s.store.length → s.store ≠ [] →
       ∃ b : String × Nat, dictGet s.access_times b.1 = some b.2 ∧
         (∀ p ∈ s.access_times, b.2 ≤ p.2) ∧
         ((VersionedKeyValueStore.put s key value).2).store.map Prod.fst =
           (s.store.map Prod.fst).erase b.1 ++ [key] ∧
         dictGet ((VersionedKeyValueStore.put s key value).2).store b.1 =
           none) ∧
    (∀ key ver, dictContains s.store key = false →
       s.store.length < s.max_cache_size →
       (((VersionedKeyValueStore.get s key ver).2).store.map Prod.fst =
          s.store.map Prod.fst ∨
        ((VersionedKeyValueStore.get s key ver).2).store.map Prod.fst =
          s.store.map Prod.fst ++ [key])) ∧
    (∀ key ver, dictContains s.store key = false →
       s.max_cache_size ≤ s.store.length → s.store ≠ [] →
       (((VersionedKeyValueStore.get s key ver).2).store.map Prod.fst =
          s.store.map Prod.fst ∨
        ∃ b : String × Nat, dictGet s.access_times b.1 = some b.2 ∧
          (∀ p ∈ s.access_times, b.2 ≤ p.2) ∧
          ((VersionedKeyValueStore.get s key ver).2).store.map Prod.fst =
            (s.store.map Prod.fst).erase b.1 ++ [key] ∧
          dictGet ((VersionedKeyValueStore.get s key ver).2).store b.1 =
            none)) := by
  have hatnd : (s.access_times.map Prod.fst).Nodup := by
    rw [hsync]; exact hnd
  refine ⟨?_, ?_, ?_, ?_, ?_, ?_⟩
  · intro key value hc
    obtain ⟨vs, hvs⟩ :=
      Option.isSome_iff_exists.1 (dictGet_isSome_of_contains hc)
    rw [put_snd_cached s key value hvs]
    exact map_fst_dictSet_contains _ _ _ hc
  · intro key ver hc
    obtain ⟨vs, hvs⟩ :=
      Option.isSome_iff_exists.1 (dictGet_isSome_of_contains hc)
    cases ver with
    | none => rw [get_cached_none s key hvs]
    | some v =>
        cases hr : vs.find? (fun r => r.version = v) with
        | some r => rw [get_cached_found s key v hvs hr]
        | none =>
            rw [get_cached_missing s key v hvs hr]
            cases hd : DatabaseLayer.get s.db key (some v) with
            | none =>
                rw [gfd_db_none
                  { s with access_times := dictSet s.access_times key s.clock }
                  key (some v) hd]
            | some row =>
                rw [gfd_db_some_cached
                  { s with access_times := dictSet s.access_times key s.clock }
                  key (some v) hd
                  (show dictGet s.store key = some vs from hvs)]
                exact map_fst_dictSet_contains _ _ _ hc
  · intro key value hc hlt
    have he : should_evict s = false := by
      unfold should_evict
      exact decide_eq_false (Nat.not_le.2 hlt)
    rw [put_snd_uncached_noevict s key value hc he]
    exact map_fst_dictSet_not_contains _ _ _ hc
  · intro key value hc hge hne
    have he : should_evict s = true := by
      unfold should_evict
      exact decide_eq_true hge
    obtain ⟨b, hmp, hkey, hmem, hmin, hst, hat, hlen⟩ :=
      evict_lru_shrinks hnd hsync hne
    have hbne : ¬ b.1 = key := by
      intro hx
      rw [dictContains_false_iff] at hc
      exact hc (hx ▸ hkey)
    refine ⟨b, dictGet_of_mem_nodup hatnd hmem, hmin, ?_, ?_⟩
    · rw [put_snd_uncached_evict s key value hc he]
      show (dictSet (evict_lru s).store key _).map Prod.fst = _
      have hc2 : dictContains (evict_lru s).store key = false :=
        evict_lru_not_contains hc
      rw [map_fst_dictSet_not_contains _ _ _ hc2, hst,
        map_fst_dictDel_erase hnd]
    · rw [put_snd_uncached_evict s key value hc he]
      show dictGet (dictSet (evict_lru s).store key _) b.1 = none
      rw [dictGet_dictSet_ne _ _ hbne, hst, dictGet_dictDel_self]
  · intro key ver hc hlt
    have he : should_evict s = false := by
      unfold should_evict
      exact decide_eq_false (Nat.not_le.2 hlt)
    rw [get_uncached s key ver hc]
    cases hd : DatabaseLayer.get s.db key ver with
    | none =>
        left
        rw [gfd_db_none s key ver hd]
    | some row =>
        right
        rw [gfd_db_some_uncached_noevict s key ver hd hc he]
        show (s.store ++ _).map Prod.fst = _
        rw [List.map_append]
        rfl
  · intro key ver hc hge hne
    have he : should_evict s = true := by
      unfold should_evict
      exact decide_eq_true hge
    rw [get_uncached s key ver hc]
    cases hd : DatabaseLayer.get s.db key ver with
    | none =>
        left
        rw [gfd_db_none s key ver hd]
    | some row =>
        right
        obtain ⟨b, hmp, hkey, hmem, hmin, hst, hat, hlen⟩ :=
          evict_lru_shrinks hnd hsync hne
        have hbne : ¬ b.1 = key := by
          intro hx
          rw [dictContains_false_iff] at hc
          exact hc (hx ▸ hkey)
        refine ⟨b, dictGet_of_mem_nodup hatnd hmem, hmin, ?_, ?_⟩
        · rw [gfd_db_some_uncached_evict s key ver hd hc he]
          show ((evict_lru s).store ++ _).map Prod.fst = _
          rw [List.map_append, hst, map_fst_dictDel_erase hnd]
          rfl
        · rw [gfd_db_some_uncached_evict s key ver hd hc he]
          show dictGet ((evict_lru s).store ++ _) b.1 = none
          rw [← dictSet_not_contains_eq_append _ (evict_lru_not_contains hc)]
          rw [dictGet_dictSet_ne _ _ hbne, hst, dictGet_dictDel_self]

/-- Witness for C5: a concrete state where a put to the already-cached key
leaves the cached key set unchanged. -/
theorem C5_witness :
    (witState.store.map Prod.fst).Nodup ∧
    witState.access_times.map Prod.fst = witState.store.map Prod.fst ∧
    dictContains witState.store keyK = true ∧
    ((VersionedKeyValueStore.put witState keyK 99).2).store.map Prod.fst =
      witState.store.map Prod.fst :=
  ⟨by decide, by decide, by decide,
   (C5_lru_eviction Nat witState (by decide) (by decide)).1 keyK 99 (by decide)⟩

/-- C6: put immediately followed by get with version unspecified returns
the written value, carrying the version the database assigned to that put
(previous maximal version plus one), tagged source=cache. Holds in every
store state. -/
theorem C6_put_then_get_roundtrip (α : Type) (s : StoreState α)
    (key : String) (value : α) :
    ((VersionedKeyValueStore.get (VersionedKeyValueStore.put s key value).2
        key none).1).map (fun r => (r.value, r.version, r.source)) =
      some (value, maxVersion (s.db key) + 1, srcCache) := by
  have hm := mintedVersion_eq_max_succ s.db key
  by_cases hc : dictContains s.store key = true
  · obtain ⟨vs, hvs⟩ :=
      Option.isSome_iff_exists.1 (dictGet_isSome_of_contains hc)
    rw [put_snd_cached s key value hvs]
    have hg := dictGet_dictSet_self s.store key
      (vs ++ [⟨value, mintedVersion s.db key, s.clock⟩])
    rw [get_cached_none _ key hg]
    dsimp only
    rw [List.getLast?_concat]
    rw [← hm]
    rfl
  · rw [Bool.not_eq_true] at hc
    cases he : should_evict s with
    | false =>
        rw [put_snd_uncached_noevict s key value hc he]
        have hg := dictGet_dictSet_self s.store key
          [(⟨value, mintedVersion s.db key, s.clock⟩ : VersionedValue α)]
        rw [get_cached_none _ key hg]
        rw [← hm]
        rfl
    | true =>
        rw [put_snd_uncached_evict s key value hc he]
        have hg := dictGet_dictSet_self (evict_lru s).store key
          [(⟨value, mintedVersion s.db key, s.clock⟩ : VersionedValue α)]
        rw [get_cached_none _ key hg]
        rw [← hm]
        rfl

/-- C7: starting from an empty database, the versions stored for a key
after any sequence of Persistence.put calls are exactly 1, 2, ..., n in
order, where n is the number of puts on that key; and the next put on
that key is assigned version n + 1 (the value Python reads out of the put
result). -/
theorem C7_version_monotonicity (α : Type) (ops : List (String × α))
    (k : String) (value : α) (now : Nat) :
    (runDbPuts ops k).map (fun r => r.version) =
      List.range' 1 ((ops.filter (fun op => op.1 = k)).length) ∧
    ((DatabaseLayer.put (runDbPuts ops) k value now).1.new_version).getD
        (((DatabaseLayer.put (runDbPuts ops) k value now).1.version).getD 0) =
      (ops.filter (fun op => op.1 = k)).length + 1 := by
  constructor
  · rw [runDbPuts_wf ops k, runDbPuts_length]
  · rw [dbPut_minted_getD, mintedVersion_eq_of_wf (runDbPuts_wf ops) k,
      runDbPuts_length]

/-- C10: in every reachable state, get returns not-found exactly when the
key was never written (version unspecified) or the requested version does
not exist for that key in the database; moreover at a concrete state a
never-written key is absent, a too-large version of an existing key is
absent, while the versionless get of that key succeeds. -/
theorem C10_not_found_semantics :
    (∀ (α : Type) (m : Nat) (ops : List (StoreOp α)) (key : String)
      (ver : Option Nat),
      ((VersionedKeyValueStore.get (runOps (initState α m) ops) key ver).1 =
          none ↔
        (match ver with
         | none => (runOps (initState α m) ops).db key = []
         | some v => ∀ r ∈ (runOps (initState α m) ops).db key,
             ¬ r.version = v))) ∧
    (VersionedKeyValueStore.get witState keyMissing none).1 = none ∧
    (VersionedKeyValueStore.get witState keyK (some 99)).1 = none ∧
    ¬ (VersionedKeyValueStore.get witState keyK none).1 = none := by
  refine ⟨?_, by decide, by decide, by decide⟩
  intro α m ops key ver
  exact get_none_iff (Inv_run_init m ops) key ver

end StoreClaims

/-! ### Ring lemmas -/

section RingLemmas

theorem get?_at_takeWhile_length (xs : List Nat) (p : Nat → Bool) :
    xs.get? ((xs.takeWhile p).length) = (xs.dropWhile p).head? := by
  induction xs with
  | nil => rfl
  | cons a t ih =>
      by_cases hp : p a = true
      · rw [List.takeWhile_cons_of_pos hp, List.dropWhile_cons_of_pos hp]
        rw [List.length_cons]
        show t.get? ((t.takeWhile p).length) = _
        exact ih
      · rw [List.takeWhile_cons_of_neg hp, List.dropWhile_cons_of_neg hp]
        rfl

theorem find?_ge_eq_head?_dropWhile (xs : List Nat) (x : Nat) :
    xs.find? (fun h => x ≤ h) = (xs.dropWhile (fun h => h < x)).head? := by
  induction xs with
  | nil => rfl
  | cons h t ih =>
      by_cases hx : x ≤ h
      · rw [List.find?_cons_of_pos _ (by simp [hx])]
        rw [List.dropWhile_cons_of_neg (by simp; omega)]
        rfl
      · rw [List.find?_cons_of_neg _ (by simp [hx])]
        rw [List.dropWhile_cons_of_pos (by simp; omega)]
        exact ih

/-- The code's bisect-based lookup coincides with the spec's first-entry-
at-or-above rule with wraparound. -/
theorem get_server_eq_locateSpec (hf : String → Nat) (c : ConsistentHash)
    (key : String) :
    ConsistentHash.get_server hf c key = locateSpec hf c key := by
  unfold ConsistentHash.get_server locateSpec
  by_cases he : c.sorted_keys.isEmpty
  · rw [if_pos he, if_pos he]
  · rw [if_neg he, if_neg he]
    dsimp only
    rw [find?_ge_eq_head?_dropWhile]
    by_cases hi : ConsistentHash.bisect_left c.sorted_keys (hf key) =
        c.sorted_keys.length
    · rw [if_pos hi]
      have hdrop : c.sorted_keys.dropWhile (fun h => h < hf key) = [] := by
        have hlen := congrArg List.length
          (List.takeWhile_append_dropWhile (fun h => h < hf key)
            c.sorted_keys)
        rw [List.length_append] at hlen
        unfold ConsistentHash.bisect_left at hi
        apply List.length_eq_zero.1
        omega
      rw [hdrop]
      show (c.sorted_keys.get? 0).bind _ = _
      cases hh : c.sorted_keys with
      | nil => rfl
      | cons a t => rfl
    · rw [if_neg hi]
      rw [show ConsistentHash.bisect_left c.sorted_keys (hf key) =
        (c.sorted_keys.takeWhile (fun h => h < hf key)).length from rfl]
      rw [get?_at_takeWhile_length]
      cases hh : (c.sorted_keys.dropWhile (fun h => h < hf key)).head? with
      | none =>
          exfalso
          apply hi
          have hd : c.sorted_keys.dropWhile (fun h => h < hf key) = [] := by
            cases hx : c.sorted_keys.dropWhile (fun h => h < hf key) with
            | nil => rfl
            | cons a t => rw [hx] at hh; cases hh
          have hlen := congrArg List.length
            (List.takeWhile_append_dropWhile (fun h => h < hf key)
              c.sorted_keys)
          rw [List.length_append, hd] at hlen
          unfold ConsistentHash.bisect_left
          simpa using hlen
      | some h0 => rfl

theorem foldl_removeStep_split (ks : List Nat) (c : ConsistentHash) :
    ks.foldl ConsistentHash.removeStep c =
      ⟨ks.foldl (fun r h => dictDel r h) c.ring,
       ks.foldl (fun l h => l.erase h) c.sorted_keys⟩ := by
  induction ks generalizing c with
  | nil => rfl
  | cons k t ih =>
      rw [List.foldl_cons, List.foldl_cons, List.foldl_cons]
      exact ih _

theorem foldl_dictDel_eq_filter (ks : List Nat) (d : List (Nat × String)) :
    ks.foldl (fun d k => dictDel d k) d =
      d.filter (fun p => ¬ p.1 ∈ ks) := by
  induction ks generalizing d with
  | nil => simp
  | cons k t ih =>
      rw [List.foldl_cons, ih]
      show (dictDel d k).filter _ = _
      unfold dictDel
      rw [List.filter_filter]
      apply List.filter_congr
      intro p _
      by_cases h1 : p.1 = k
      · simp [h1]
      · by_cases h2 : p.1 ∈ t <;> simp [h1, h2]

theorem foldl_erase_eq_filter (ks : List Nat) (l : List Nat)
    (hnd : l.Nodup) :
    ks.foldl (fun l h => l.erase h) l = l.filter (fun a => ¬ a ∈ ks) := by
  induction ks generalizing l with
  | nil => simp
  | cons k t ih =>
      rw [List.foldl_cons]
      show List.foldl (fun l h => l.erase h) (l.erase k) t = _
      rw [ih (l.erase k) (hnd.erase k)]
      rw [hnd.erase_eq_filter k, List.filter_filter]
      apply List.filter_congr
      intro a _
      by_cases h1 : a = k
      · simp [h1]
      · by_cases h2 : a ∈ t <;> simp [h1, h2]

theorem remove_server_ring (c : ConsistentHash) (server : String)
    (hring : (c.ring.map Prod.fst).Nodup) :
    (ConsistentHash.remove_server c server).ring =
      c.ring.filter (fun p => ¬ p.2 = server) := by
  unfold ConsistentHash.remove_server
  rw [foldl_removeStep_split]
  show ((((c.ring.filter (fun p => p.2 = server)).map (fun p => p.1)).foldl
    (fun r h => dictDel r h) c.ring)) = _
  rw [foldl_dictDel_eq_filter]
  apply List.filter_congr
  intro p hp
  by_cases hs : p.2 = server
  · have hmem : p.1 ∈ (c.ring.filter (fun p => p.2 = server)).map
        (fun p => p.1) :=
      List.mem_map.2 ⟨p, List.mem_filter.2 ⟨hp, by simp [hs]⟩, rfl⟩
    simp [hmem, hs]
  · have hmem : ¬ p.1 ∈ (c.ring.filter (fun p => p.2 = server)).map
        (fun p => p.1) := by
      intro hx
      obtain ⟨q, hq, he⟩ := List.mem_map.1 hx
      obtain ⟨hq1, hq2⟩ := List.mem_filter.1 hq
      have : q = p :=
        List.inj_on_of_nodup_map hring hq1 hp he
      apply hs
      rw [← this]
      simpa using hq2
    simp [hmem, hs]

theorem remove_server_sorted_keys (c : ConsistentHash) (server : String)
    (hring : (c.ring.map Prod.fst).Nodup) (hsk : c.sorted_keys.Nodup) :
    (ConsistentHash.remove_server c server).sorted_keys =
      c.sorted_keys.filter (fun h => ¬ dictGet c.ring h = some server) := by
  unfold ConsistentHash.remove_server
  rw [foldl_removeStep_split]
  show (((c.ring.filter (fun p => p.2 = server)).map (fun p => p.1)).foldl
    (fun l h => l.erase h) c.sorted_keys) = _
  rw [foldl_erase_eq_filter _ _ hsk]
  apply List.filter_congr
  intro h _
  by_cases hg : dictGet c.ring h = some server
  · have hmem : h ∈ (c.ring.filter (fun p => p.2 = server)).map
        (fun p => p.1) :=
      List.mem_map.2 ⟨(h, server),
        List.mem_filter.2 ⟨dictGet_mem hg, by simp⟩, rfl⟩
    simp [hmem, hg]
  · have hmem : ¬ h ∈ (c.ring.filter (fun p => p.2 = server)).map
        (fun p => p.1) := by
      intro hx
      obtain ⟨q, hq, he⟩ := List.mem_map.1 hx
      obtain ⟨hq1, hq2⟩ := List.mem_filter.1 hq
      apply hg
      have := dictGet_of_mem_nodup hring hq1
      rw [he] at this
      rw [this]
      simp at hq2
      rw [hq2]
    simp [hmem, hg]

theorem dictGet_filter_ne_server {r : List (Nat × String)} {h : Nat}
    {n server : String} (hg : dictGet r h = some n) (hne : ¬ n = server) :
    dictGet (r.filter (fun p => ¬ p.2 = server)) h = some n := by
  unfold dictGet at hg ⊢
  cases hp : r.find? (fun p => p.1 = h) with
  | none => rw [hp] at hg; cases hg
  | some p =>
      rw [hp] at hg
      simp only [Option.map_some', Option.some.injEq] at hg
      have hfp := @find?_filter_some (Nat × String)
        (fun p => decide (p.1 = h)) (fun p => decide (¬ p.2 = server))
        r p hp (by simp [hg, hne])
      rw [hfp]
      simp [hg]

/-- locateSpec when some entry lies at or above the key hash. -/
theorem locateSpec_eq_of_find (hf : String → Nat) (c : ConsistentHash)
    (key : String) (h0 : Nat) (he : ¬ c.sorted_keys.isEmpty = true)
    (hfind : c.sorted_keys.find? (fun hh => hf key ≤ hh) = some h0) :
    locateSpec hf c key = dictGet c.ring h0 := by
  unfold locateSpec
  rw [if_neg he, hfind]

/-- locateSpec when the key hashes past every entry (the wrap case). -/
theorem locateSpec_eq_of_wrap (hf : String → Nat) (c : ConsistentHash)
    (key : String) (he : ¬ c.sorted_keys.isEmpty = true)
    (hfind : c.sorted_keys.find? (fun hh => hf key ≤ hh) = none) :
    locateSpec hf c key =
      (c.sorted_keys.head?).bind (fun h => dictGet c.ring h) := by
  unfold locateSpec
  rw [if_neg he, hfind]

/-- Removing a server leaves locate unchanged on every key it did not
own. -/
theorem locateSpec_remove {hf : String → Nat} {c : ConsistentHash}
    {server key : String} {n : String}
    (hring : (c.ring.map Prod.fst).Nodup) (hsk : c.sorted_keys.Nodup)
    (h : locateSpec hf c key = some n) (hne : ¬ n = server) :
    locateSpec hf (ConsistentHash.remove_server c server) key = some n := by
  have hr := remove_server_ring c server hring
  have hs := remove_server_sorted_keys c server hring hsk
  by_cases he : c.sorted_keys.isEmpty = true
  · unfold locateSpec at h
    rw [if_pos he] at h
    cases h
  · cases hfind : c.sorted_keys.find? (fun hh => hf key ≤ hh) with
    | some h0 =>
        rw [locateSpec_eq_of_find hf c key h0 he hfind] at h
        have hq : decide (¬ dictGet c.ring h0 = some server) = true := by
          simp only [decide_eq_true_eq]
          rw [h]
          simp
          intro hx
          exact hne hx
        have hfind2 := @find?_filter_some Nat
          (fun hh => decide (hf key ≤ hh))
          (fun hh => decide (¬ dictGet c.ring hh = some server))
          c.sorted_keys h0 hfind hq
        have hmem2 : h0 ∈ c.sorted_keys.filter
            (fun hh => ¬ dictGet c.ring hh = some server) :=
          List.mem_of_find?_eq_some hfind2
        have he2 : ¬ (ConsistentHash.remove_server c
            server).sorted_keys.isEmpty = true := by
          rw [hs, List.isEmpty_iff]
          exact fun hx => List.ne_nil_of_mem hmem2 hx
        rw [locateSpec_eq_of_find hf _ key h0 he2 (by rw [hs]; exact hfind2)]
        rw [hr]
        exact dictGet_filter_ne_server h hne
    | none =>
        rw [locateSpec_eq_of_wrap hf c key he hfind] at h
        cases hh : c.sorted_keys.head? with
        | none =>
            rw [hh] at h
            cases h
        | some h0 =>
            rw [hh] at h
            simp only [Option.some_bind] at h
            have hq : decide (¬ dictGet c.ring h0 = some server) = true := by
              simp only [decide_eq_true_eq]
              rw [h]
              simp
              intro hx
              exact hne hx
            have hfind2 : (c.sorted_keys.filter
                (fun hh => ¬ dictGet c.ring hh = some server)).find?
                  (fun hh => hf key ≤ hh) = none :=
              find?_filter_none hfind
            have hh2 := @head?_filter_of_pos Nat
              (fun hh => decide (¬ dictGet c.ring hh = some server))
              c.sorted_keys h0 hh hq
            have he2 : ¬ (ConsistentHash.remove_server c
                server).sorted_keys.isEmpty = true := by
              rw [hs, List.isEmpty_iff]
              intro hx
              rw [hx] at hh2
              cases hh2
            rw [locateSpec_eq_of_wrap hf _ key he2 (by rw [hs]; exact hfind2)]
            rw [hs, hh2]
            simp only [Option.some_bind]
            rw [hr]
            exact dictGet_filter_ne_server h hne

end RingLemmas

/-! ### Claim theorems for the hash ring -/

section RingClaims

/-- C4: on a ring whose hash list is sorted and whose listed hashes all
resolve in the ring dict, get_server fails (returns no node) exactly when
the ring is empty, and otherwise returns the node owning the first entry
whose hash value is at least hash(key), wrapping around to the first
entry when the key hashes past every entry — the locate rule as the spec
states it. -/
theorem C4_locate_rule (hf : String → Nat) (c : ConsistentHash)
    (hsorted : c.sorted_keys.Sorted (· ≤ ·))
    (hlk : ∀ h ∈ c.sorted_keys, (dictGet c.ring h).isSome) (key : String) :
    (ConsistentHash.get_server hf c key = none ↔ c.sorted_keys = []) ∧
    ConsistentHash.get_server hf c key = locateSpec hf c key := by
  refine ⟨⟨?_, ?_⟩, get_server_eq_locateSpec hf c key⟩
  · intro hnone
    by_contra hne
    unfold ConsistentHash.get_server at hnone
    rw [if_neg (by rw [List.isEmpty_iff]; exact hne)] at hnone
    dsimp only at hnone
    have hlt : (if ConsistentHash.bisect_left c.sorted_keys (hf key) =
        c.sorted_keys.length then 0
        else ConsistentHash.bisect_left c.sorted_keys (hf key)) <
          c.sorted_keys.length := by
      by_cases hi : ConsistentHash.bisect_left c.sorted_keys (hf key) =
          c.sorted_keys.length
      · rw [if_pos hi]
        cases hx : c.sorted_keys with
        | nil => exact absurd hx hne
        | cons a t => simp [hx]
      · rw [if_neg hi]
        have h3 : (c.sorted_keys.takeWhile
            (fun h => h < hf key)).length ≤ c.sorted_keys.length :=
          (List.takeWhile_sublist _).length_le
        unfold ConsistentHash.bisect_left at hi ⊢
        omega
    cases hh0 : c.sorted_keys.get?
        (if ConsistentHash.bisect_left c.sorted_keys (hf key) =
          c.sorted_keys.length then 0
         else ConsistentHash.bisect_left c.sorted_keys (hf key)) with
    | none =>
        rw [List.get?_eq_none] at hh0
        omega
    | some h0 =>
        rw [hh0] at hnone
        simp only [Option.some_bind] at hnone
        have hmem : h0 ∈ c.sorted_keys := List.get?_mem hh0
        have hsome := hlk h0 hmem
        rw [hnone] at hsome
        cases hsome
  · intro hempty
    unfold ConsistentHash.get_server
    rw [if_pos (by rw [List.isEmpty_iff]; exact hempty)]

/-- Witness for C4 at a concrete two-server ring. -/
theorem C4_witness :
    witRing.sorted_keys.Sorted (· ≤ ·) ∧
    (∀ h ∈ witRing.sorted_keys, (dictGet witRing.ring h).isSome) ∧
    ((ConsistentHash.get_server witHash witRing keyA = none ↔
        witRing.sorted_keys = []) ∧
      ConsistentHash.get_server witHash witRing keyA =
        locateSpec witHash witRing keyA) :=
  ⟨by decide, by decide,
   C4_locate_rule witHash witRing (by decide) (by decide) keyA⟩

/-- C9: removing a node deletes exactly its virtual-node ring entries
(the ring keeps precisely the entries of other servers, and the sorted
hash list keeps precisely the hash positions not owned by the removed
server, both in their original order), and every key previously located
at a different node still locates to that same node afterwards. -/
theorem C9_remove_node (hf : String → Nat) (c : ConsistentHash)
    (server : String) (hring : (c.ring.map Prod.fst).Nodup)
    (hsk : c.sorted_keys.Nodup) :
    (ConsistentHash.remove_server c server).ring =
      c.ring.filter (fun p => ¬ p.2 = server) ∧
    (ConsistentHash.remove_server c server).sorted_keys =
      c.sorted_keys.filter (fun h => ¬ dictGet c.ring h = some server) ∧
    ∀ key n, ConsistentHash.get_server hf c key = some n → ¬ n = server →
      ConsistentHash.get_server hf (ConsistentHash.remove_server c server)
        key = some n := by
  refine ⟨remove_server_ring c server hring,
    remove_server_sorted_keys c server hring hsk, ?_⟩
  intro key n h hne
  rw [get_server_eq_locateSpec] at h ⊢
  exact locateSpec_remove hring hsk h hne

/-- Witness for C9: removing server b from the concrete ring keeps the
two entries of server a, and the key that located to a still does. -/
theorem C9_witness :
    ((witRing.ring.map Prod.fst).Nodup ∧ witRing.sorted_keys.Nodup) ∧
    (ConsistentHash.remove_server witRing keyJ).ring =
      witRing.ring.filter (fun p => ¬ p.2 = keyJ) ∧
    ConsistentHash.get_server witHash witRing keyA = some keyA ∧
    ¬ keyA = keyJ ∧
    ConsistentHash.get_server witHash
      (ConsistentHash.remove_server witRing keyJ) keyA = some keyA :=
  ⟨⟨by decide, by decide⟩,
   (C9_remove_node witHash witRing keyJ (by decide) (by decide)).1,
   by decide, by decide,
   (C9_remove_node witHash witRing keyJ (by decide) (by decide)).2.2
     keyA keyA (by decide) (by decide)⟩

end RingClaims

section MonitoringClaims

/-- C8: when metrics exist (get_insights computes hot spots only then), a
node name is listed as a hot spot exactly when some metric entry with
that name has a request count strictly above 1.5 times the mean request
count over all listed nodes (zero-traffic nodes included in the mean);
on counts [10, 10, 31] exactly the third server is flagged, and on
[10, 10, 20] no server is flagged. -/
theorem C8_hot_spot_threshold :
    (∀ (ms : List ServerMetrics), ms ≠ [] → ∀ name,
      (name ∈ hot_spots ms ↔ ∃ m ∈ ms, m.server_name = name ∧
        (m.request_count : ℚ) >
          ((total_requests ms : ℚ) / (ms.length : ℚ)) * (3 / 2))) ∧
    hot_spots exMetricsHot = [srvThree] ∧
    hot_spots exMetricsCool = [] := by
  refine ⟨?_, ?_, ?_⟩
  case refine_2 =>
    unfold hot_spots exMetricsHot total_requests
    norm_num [List.filter]
  case refine_3 =>
    unfold hot_spots exMetricsCool total_requests
    norm_num [List.filter]
  intro ms hne name
  unfold hot_spots
  rw [List.mem_map]
  constructor
  · rintro ⟨m, hm, he⟩
    obtain ⟨hm1, hm2⟩ := List.mem_filter.1 hm
    refine ⟨m, hm1, he, ?_⟩
    simpa using hm2
  · rintro ⟨m, hm, he, hgt⟩
    exact ⟨m, List.mem_filter.2 ⟨hm, by simpa using hgt⟩, he⟩

/-- Witness for C8 applying the rule at the concrete hot example. -/
theorem C8_witness :
    exMetricsHot ≠ [] ∧
    (srvThree ∈ hot_spots exMetricsHot ↔ ∃ m ∈ exMetricsHot,
      m.server_name = srvThree ∧ (m.request_count : ℚ) >
        ((total_requests exMetricsHot : ℚ) /
          (exMetricsHot.length : ℚ)) * (3 / 2)) :=
  ⟨by decide, (C8_hot_spot_threshold.1 exMetricsHot (by decide)) srvThree⟩

end MonitoringClaims

end KVStore
